import Mathlib

/-!
# Verification of the `luminal` symbolic-expression engine

Shallow embedding of `src/shape/symbolic.rs` (the authoritative revision):
the `Term` vocabulary, the postfix stack-machine evaluator (`exec_stack` and
friends), the fixpoint peephole simplifier `reduce_triples`, the construction
combinators (`Add`, `Sub`, `Mul`, `Div`, `Rem`, `BitAnd`, `BitOr`, `min`,
`max`, `gte`, `lt`), and `substitute`.

Machine integers are modelled as `Int` with explicit range checks:
Rust `i64` checked arithmetic is an `Option Int` returning `none` outside
`[-(2^63), 2^63 - 1]`, the `as i32` write-back in the constant folder is an
explicit wrap into `[-(2^31), 2^31)`, and the `i64 as usize` cast at the end
of `exec` is reduction modulo `2^64`.  Rust panics (`unwrap` on an empty
stack or on a failed checked operation) are modelled as a distinct `crash`
result, kept separate from the `Option`-absent result that `exec` returns on
an unbound variable.
-/

namespace Luminal

/-- `Term` from `symbolic.rs`: a number, a variable, or a binary opcode.
`num` carries the mathematical value of the Rust `i32`. -/
inductive Term where
  | num : Int → Term
  | var : Char → Term
  | add : Term
  | sub : Term
  | mul : Term
  | div : Term
  | mod : Term
  | min : Term
  | max : Term
  | and : Term
  | or : Term
  | gte : Term
  | lt : Term
deriving DecidableEq, Repr

/-- `i32::MAX`, the "infinity" sentinel of the min/max rules. -/
def i32Max : Int := 2 ^ 31 - 1

/-- Lower bound of `i64`. -/
def i64Min : Int := -(2 ^ 63)

/-- Upper bound of `i64`. -/
def i64Max : Int := 2 ^ 63 - 1

/-- Rust `i64` checked result: `some` exactly when the mathematical value is
representable in `i64`. -/
def chk64 (c : Int) : Option Int := if i64Min ≤ c ∧ c ≤ i64Max then some c else none

/-- The `c as i32` cast: wrap into `[-(2^31), 2^31)`. -/
def wrap32 (c : Int) : Int := (c + 2 ^ 31) % 2 ^ 32 - 2 ^ 31

/-- The `usize as i64` cast used when pushing environment values. -/
def usizeToI64 (v : Int) : Int := if v < 2 ^ 63 then v else v - 2 ^ 64

/-- The `i64 as usize` cast applied to the final stack value of `exec`. -/
def i64ToUsize (i : Int) : Int := i % 2 ^ 64

/-- `Term::as_op`: the checked `i64` binary function of each opcode
(`None` for `Num`/`Var`).  `Div`/`Mod` are Rust truncated division and
remainder, failing on a zero divisor (or `i64::MIN / -1`). -/
def Term.asOp : Term → Option (Int → Int → Option Int)
  | .add => some fun a b => chk64 (a + b)
  | .sub => some fun a b => chk64 (a - b)
  | .mul => some fun a b => chk64 (a * b)
  | .div => some fun a b =>
      if b = 0 ∨ (a = i64Min ∧ b = -1) then none else some (a.tdiv b)
  | .mod => some fun a b =>
      if b = 0 ∨ (a = i64Min ∧ b = -1) then none else some (a.tmod b)
  | .max => some fun a b => some (Max.max a b)
  | .min => some fun a b => some (Min.min a b)
  | .and => some fun a b => some (if a ≠ 0 ∧ b ≠ 0 then 1 else 0)
  | .or => some fun a b => some (if a ≠ 0 ∨ b ≠ 0 then 1 else 0)
  | .gte => some fun a b => some (if b ≤ a then 1 else 0)
  | .lt => some fun a b => some (if a < b then 1 else 0)
  | _ => none

/-- A term that pushes a value (a `Num` or a `Var`). -/
def Term.isLeaf : Term → Bool
  | .num _ => true
  | .var _ => true
  | _ => false

/-- Result of running the faithful stack machine over a term list: `crash`
models a Rust panic (`unwrap` failure), `unbound` models the early `return
None` on a missing variable, `ok` is normal completion with the final stack. -/
inductive ExecRes where
  | crash : ExecRes
  | unbound : ExecRes
  | ok : List Int → ExecRes
deriving DecidableEq, Repr

/-- The loop body of `exec_stack`: walk the terms, pushing literals and
environment values and applying `as_op` at operators (popping the top value
`a` first, then `b`).  Mirrors `GenericExpression::exec_stack` exactly;
the failed `unwrap`s of that code are `crash`. -/
def execT (env : Char → Option Int) : List Term → List Int → ExecRes
  | [], st => .ok st
  | .num n :: r, st => execT env r (n :: st)
  | .var c :: r, st =>
      match env c with
      | some v => execT env r (usizeToI64 v :: st)
      | none => .unbound
  | t :: r, st =>
      match st, t.asOp with
      | a :: b :: st', some f =>
          match f a b with
          | some c => execT env r (c :: st')
          | none => .crash
      | _, _ => .crash

/-- Outcome of `exec`: either a Rust panic, or the `Option<usize>` return. -/
inductive ExecOut where
  | crash : ExecOut
  | ret : Option Int → ExecOut
deriving DecidableEq, Repr

/-- `exec_stack(variables, stack)` with a caller-provided scratch stack:
run the machine, then `stack.pop().map(|i| i as usize)`. -/
def execStack (t : List Term) (env : Char → Option Int) (st : List Int) : ExecOut :=
  match execT env t st with
  | .crash => .crash
  | .unbound => .ret none
  | .ok st' => .ret (st'.head?.map i64ToUsize)

/-- `exec(variables)`: `exec_stack` with a fresh empty stack. -/
def exec (t : List Term) (env : Char → Option Int) : ExecOut :=
  execStack t env []

/-- `exec_single_var_stack(value, stack)`: every `Var` pushes the one value;
the final `stack.pop().unwrap() as usize` panics (`none`) on an empty stack. -/
def execSVStack (t : List Term) (value : Int) (st : List Int) : Option Int :=
  match execT (fun _ => some value) t st with
  | .ok st' => st'.head?.map i64ToUsize
  | _ => none

/-- `exec_single_var(value)`: `exec_single_var_stack` with a fresh stack. -/
def execSV (t : List Term) (value : Int) : Option Int :=
  execSVStack t value []

/-- `to_symbols()`: the variable characters in term order. -/
def toSymbols (t : List Term) : List Char :=
  t.filterMap fun tm => match tm with | .var c => some c | _ => none

/-- `to_usize()`: evaluate against the empty environment. -/
def toUsize (t : List Term) : ExecOut :=
  exec t (fun _ => none)

/-- `GenericExpression::default()`: the single term `Num(0)`. -/
def defaultE : List Term := [Term.num 0]

/-- Abstract stack-depth walk of a postfix sequence: a leaf pushes one value,
an operator pops two and pushes one; `none` on underflow. -/
def wfAux : List Term → Nat → Option Nat
  | [], d => some d
  | .num _ :: r, d => wfAux r (d + 1)
  | .var _ :: r, d => wfAux r (d + 1)
  | _ :: r, d + 2 => wfAux r (d + 1)
  | _ :: _, _ => none

/-- Well-formed postfix: the walk from an empty stack never underflows and
ends with exactly one value. -/
def WF (t : List Term) : Prop := wfAux t 0 = some 1

instance (t : List Term) : Decidable (WF t) := by unfold WF; infer_instance

/-- A triple recorded by `get_triples`: the index of the top popped operand
(`none` when it is a previously-computed sub-expression), the operator index,
and the index of the second popped operand. -/
abbrev Trip := Option Nat × Nat × Option Nat

/-- The collection walk of `get_triples` in `reduce_triples`.  `i` is the
`enumerate` index of the head of the remaining terms, `st` the stack of
`(Option index, summary term)` pairs.  A leaf pushes itself with its index;
an operator pops two entries, records a triple, and pushes an index-free
summary: the wrapped constant fold when both operands are `Num` (stopping
the whole walk — the `break` — when the checked fold fails), else a
surviving `Var` (the top operand preferred).  Underflow panics in Rust and
is unreachable for well-formed input; here it simply ends the walk. -/
def gtAux : List Term → Nat → List (Option Nat × Term) → List Trip
  | [], _, _ => []
  | .num n :: r, i, st => gtAux r (i + 1) ((some i, .num n) :: st)
  | .var c :: r, i, st => gtAux r (i + 1) ((some i, .var c) :: st)
  | t :: r, i, st =>
      match st with
      | a :: b :: st' =>
          (a.1, i, b.1) ::
            (match a.2, b.2 with
             | .num x, .num y =>
                 match (t.asOp.getD fun _ _ => none) x y with
                 | some c => gtAux r (i + 1) ((none, .num (wrap32 c)) :: st')
                 | none => []
             | .var v, _ => gtAux r (i + 1) ((none, .var v) :: st')
             | _, .var v => gtAux r (i + 1) ((none, .var v) :: st')
             | _, _ => gtAux r (i + 1) st')
      | _ => []

/-- `get_triples` on a whole expression. -/
def getTriples (t : List Term) : List Trip := gtAux t 0 []

/-- The stack left by the `get_triples` walk (`some` only when the walk
neither breaks nor underflows); used to reason about walks of
concatenations. -/
def wstk : List Term → Nat → List (Option Nat × Term) →
    Option (List (Option Nat × Term))
  | [], _, st => some st
  | .num n :: r, i, st => wstk r (i + 1) ((some i, .num n) :: st)
  | .var c :: r, i, st => wstk r (i + 1) ((some i, .var c) :: st)
  | t :: r, i, st =>
      match st with
      | a :: b :: st' =>
          (match a.2, b.2 with
           | .num x, .num y =>
               match (t.asOp.getD fun _ _ => none) x y with
               | some c => wstk r (i + 1) ((none, .num (wrap32 c)) :: st')
               | none => none
           | .var v, _ => wstk r (i + 1) ((none, .var v) :: st')
           | _, .var v => wstk r (i + 1) ((none, .var v) :: st')
           | _, _ => wstk r (i + 1) st')
      | _ => none

/-- `remove_terms(&mut terms, &[i, j])`: remove two indices in descending
order (`inds.iter().sorted().rev()`), so the smaller index stays valid. -/
def remove2 (t : List Term) (i j : Nat) : List Term :=
  if j ≤ i then (t.eraseIdx i).eraseIdx j else (t.eraseIdx j).eraseIdx i

/-- One match attempt of the rewrite scan in `reduce_triples`, on one triple
against the current terms; `some` is the rewritten term list, `none` means
the triple produced no change (including a constant fold whose checked
operation failed, and the `unwrap_cont!` `continue`s).  The match arms are
tried in the source order. -/
def applyTrip (t : List Term) : Trip → Option (List Term)
  | (aI, k, bI) =>
    let aT := aI.bind t.get?
    let bT := bI.bind t.get?
    match t.get? k with
    | none => none
    | some opT =>
      match aT, bT with
      | some (.num a), some (.num b) =>
          -- first arm: constant fold, guarded by `term.as_op().is_some()`
          match opT.asOp with
          | some f =>
              match f a b with
              | some c =>
                  some (remove2 ((t.set (aI.getD 0) (.num (wrap32 c)))) k (bI.getD 0))
              | none => none
          | none => none
      | _, _ =>
        if aT = some (.num i32Max) ∧ opT = .min then
          -- min(inf, _): drop the operator and the `Num(INF)` operand
          some (remove2 t k (aI.getD 0))
        else if opT = .min ∧ bT = some (.num i32Max) then
          some (remove2 t k (bI.getD 0))
        else if opT = .max ∧ bT = some (.num i32Max) then
          -- max(_, inf): drop the operator and the other operand
          match aI with
          | some ia => some (remove2 t k ia)
          | none => none
        else if aT = some (.num i32Max) ∧ opT = .max then
          match bI with
          | some ib => some (remove2 t k ib)
          | none => none
        else none

/-- The min/max absorption arms of the rewrite scan (the `else` chain of the
triple match), abstracted over the resolved operator and operand terms; used
to reason uniformly about rewrites of embedded copies of an expression. -/
def tripAbsorb (t : List Term) (aI bI : Option Nat) (k : Nat) (opT : Term)
    (aT bT : Option Term) : Option (List Term) :=
  if aT = some (.num i32Max) ∧ opT = .min then some (remove2 t k (aI.getD 0))
  else if opT = .min ∧ bT = some (.num i32Max) then some (remove2 t k (bI.getD 0))
  else if opT = .max ∧ bT = some (.num i32Max) then
    match aI with
    | some ia => some (remove2 t k ia)
    | none => none
  else if aT = some (.num i32Max) ∧ opT = .max then
    match bI with
    | some ib => some (remove2 t k ib)
    | none => none
  else none

/-- The inner `for` loop of `reduce_triples`: scan the triples in order and
apply the first one that fires. -/
def firstRewrite (t : List Term) : List Trip → Option (List Term)
  | [] => none
  | trip :: rest =>
      match applyTrip t trip with
      | some t' => some t'
      | none => firstRewrite t rest

/-- One iteration of the outer `while changed` loop: recompute the triples
and fire the first applicable rule. -/
def reduceStep (t : List Term) : Option (List Term) :=
  firstRewrite t (getTriples t)

/-- Iterate `reduceStep` to a fixed point.  Every firing rule strictly
shortens the list (it removes two slots), so `t.length + 1` iterations always
reach the fixed point; the fuel only makes the Rust `while` loop structurally
recursive. -/
def rtGo : Nat → List Term → List Term
  | 0, t => t
  | fuel + 1, t =>
      match reduceStep t with
      | none => t
      | some t' => rtGo fuel t'

/-- `reduce_triples`, the body of `simplify`. -/
def reduceTriples (t : List Term) : List Term := rtGo (t.length + 1) t

/-- `GenericExpression::simplify`. -/
def simplify (t : List Term) : List Term := reduceTriples t

/-- `From<i32>` / `From<usize>` scalar conversion: one `Num` term holding the
`value as i32` wrap of the scalar. -/
def scalarE (n : Int) : List Term := [Term.num (wrap32 n)]

/-- `From<char>`: one `Var` term. -/
def varE (c : Char) : List Term := [Term.var c]

/-- `impl Mul`: short-circuits `x·1`, `1·x`, `x·0`, `0·x`, else appends
`rhs ++ self ++ [Mul]` and simplifies. -/
def mulE (lhs rhs : List Term) : List Term :=
  if rhs = [Term.num 1] then lhs
  else if lhs = [Term.num 1] then rhs
  else if rhs = [Term.num 0] ∨ lhs = [Term.num 0] then [Term.num 0]
  else simplify (rhs ++ lhs ++ [Term.mul])

/-- `impl Add`: short-circuits `x+0`, `0+x`, and `x+x → x·2`, else appends
`rhs ++ self ++ [Add]` and simplifies. -/
def addE (lhs rhs : List Term) : List Term :=
  if rhs = [Term.num 0] then lhs
  else if lhs = [Term.num 0] then rhs
  else if lhs = rhs then mulE lhs [Term.num 2]
  else simplify (rhs ++ lhs ++ [Term.add])

/-- `impl Sub`. -/
def subE (lhs rhs : List Term) : List Term :=
  if rhs = [Term.num 0] then lhs
  else if lhs = rhs then [Term.num 0]
  else simplify (rhs ++ lhs ++ [Term.sub])

/-- `impl Div`. -/
def divE (lhs rhs : List Term) : List Term :=
  if rhs = [Term.num 1] then lhs
  else if lhs = rhs then [Term.num 1]
  else if lhs = [Term.num 0] then [Term.num 0]
  else simplify (rhs ++ lhs ++ [Term.div])

/-- `impl Rem`. -/
def remE (lhs rhs : List Term) : List Term :=
  if rhs = [Term.num 1] ∨ rhs = lhs then [Term.num 0]
  else simplify (rhs ++ lhs ++ [Term.mod])

/-- `impl BitAnd`. -/
def andE (lhs rhs : List Term) : List Term :=
  if rhs = [Term.num 0] ∨ lhs = [Term.num 0] then [Term.num 0]
  else if rhs = [Term.num 1] then lhs
  else if lhs = [Term.num 1] then rhs
  else simplify (rhs ++ lhs ++ [Term.and])

/-- `impl BitOr`. -/
def orE (lhs rhs : List Term) : List Term :=
  if rhs = [Term.num 1] ∨ lhs = [Term.num 1] then [Term.num 1]
  else simplify (rhs ++ lhs ++ [Term.or])

/-- `GenericExpression::min`. -/
def minE (lhs rhs : List Term) : List Term :=
  if rhs = lhs then lhs
  else simplify (rhs ++ lhs ++ [Term.min])

/-- `GenericExpression::max`. -/
def maxE (lhs rhs : List Term) : List Term :=
  if rhs = lhs ∨ rhs = [Term.num 0] then lhs
  else if lhs = [Term.num 0] then rhs
  else simplify (rhs ++ lhs ++ [Term.max])

/-- `GenericExpression::gte`. -/
def gteE (lhs rhs : List Term) : List Term :=
  if rhs = lhs then [Term.num 1]
  else simplify (rhs ++ lhs ++ [Term.gte])

/-- `GenericExpression::lt`, including the `(_ % n) < n → 1` peephole that
inspects only `rhs.terms[0]`, the last term of `self`, and `self.terms[0]`. -/
def ltE (lhs rhs : List Term) : List Term :=
  if rhs = lhs then [Term.num 0]
  else
    match rhs.head? with
    | some (.num n) =>
        if lhs.getLast? = some Term.mod ∧ lhs.head? = some (.num n) then [Term.num 1]
        else simplify (rhs ++ lhs ++ [Term.lt])
    | _ => simplify (rhs ++ lhs ++ [Term.lt])

/-- The splice loop of `substitute`: each `Var(var)` is replaced by the
replacement's terms, other terms are copied. -/
def splice (t : List Term) (x : Char) (v : List Term) : List Term :=
  t.flatMap fun tm => match tm with
    | .var c => if c = x then v else [tm]
    | _ => [tm]

/-- `GenericExpression::substitute(var, expr)`: splice, then simplify. -/
def substitute (t : List Term) (x : Char) (v : List Term) : List Term :=
  simplify (splice t x v)

/-- The slice `t[i..j)`. -/
def seg (t : List Term) (i j : Nat) : List Term := (t.drop i).take (j - i)

/-- A postfix slice that the abstract stack walk turns into exactly one
pushed value.  Every operand recorded by `get_triples` spans such a block,
which is what makes the index-based rewrites of `reduce_triples` act as
contiguous block replacements. -/
def blockOne (L : List Term) : Prop := wfAux L 0 = some 1

/-- The `get_triples` stack only ever holds `Num`/`Var` summaries. -/
def AllLeaf (st : List (Option Nat × Term)) : Prop := ∀ en ∈ st, en.2.isLeaf = true

/-- Invariant of the `get_triples` stack at walk position `pos`: each entry
summarises a contiguous one-value block of the walked prefix, the blocks
tile the prefix from the top entry (ending at `pos`) downwards, and an
entry carrying an index `some i` is the single leaf at `i`. -/
def StkInv (t : List Term) : Nat → List (Option Nat × Term) → Prop
  | _, [] => True
  | pos, en :: rest =>
      en.2.isLeaf = true ∧
        ∃ s, s ≤ pos ∧ blockOne (seg t s pos) ∧
          (∀ i, en.1 = some i → i = s ∧ s + 1 = pos) ∧ StkInv t s rest

/-- What the walk guarantees about a recorded triple `(aI, k, bI)`: the
operator at `k` consumes two adjacent one-value blocks `[sb, sa)` (operand
`b`) and `[sa, k)` (operand `a`), and a `some` operand index denotes the
single leaf ending its block. -/
def TripInv (t : List Term) : Trip → Prop
  | (aI, k, bI) =>
      ∃ sb sa, sb ≤ sa ∧ sa ≤ k ∧ k < t.length ∧
        blockOne (seg t sb sa) ∧ blockOne (seg t sa k) ∧
        (∀ i, aI = some i → i = sa ∧ sa + 1 = k) ∧
        (∀ j, bI = some j → j = sb ∧ sb + 1 = sa)

/-- Shift a stack entry's index by `d` (for walks of embedded sublists). -/
def shiftE (d : Nat) (en : Option Nat × Term) : Option Nat × Term :=
  (en.1.map (· + d), en.2)

/-- Shift all indices of a triple by `d`. -/
def shiftT (d : Nat) : Trip → Trip
  | (aI, k, bI) => (aI.map (· + d), k + d, bI.map (· + d))

/-- Invariant of the `get_triples` stack on a rewrite fixed point: an entry
carrying an index holds exactly the term at that index, and an index-free
entry is a surviving `Var` summary (an index-free `Num` could only come from
a successful in-walk constant fold, which on a fixed point would make the
corresponding rewrite fire). -/
def GoodStk (t : List Term) (st : List (Option Nat × Term)) : Prop :=
  ∀ en ∈ st, (∀ i, en.1 = some i → t.get? i = some en.2) ∧
    (en.1 = none → ∃ v, en.2 = Term.var v)

/-- The value range `[0, i32::MAX)`: non-negative and strictly below the
infinity sentinel. -/
def inB (v : Int) : Prop := 0 ≤ v ∧ v < 2 ^ 31 - 1

instance (v : Int) : Decidable (inB v) := by unfold inB; infer_instance

/-- Ghost bounded evaluator: the stack machine of `exec_stack`, additionally
checking that every pushed value lies in `[0, i32::MAX)`.  Used to state the
precondition under which simplification preserves evaluation; any failure
(bound violation, unbound variable, checked-operation failure, underflow)
is `none`. -/
def bexecT (env : Char → Option Int) : List Term → List Int → Option (List Int)
  | [], st => some st
  | .num n :: r, st => if inB n then bexecT env r (n :: st) else none
  | .var c :: r, st =>
      match env c with
      | some v =>
          if inB (usizeToI64 v) then bexecT env r (usizeToI64 v :: st) else none
      | none => none
  | t :: r, st =>
      match st, t.asOp with
      | a :: b :: st', some f =>
          match f a b with
          | some c => if inB c then bexecT env r (c :: st') else none
          | none => none
      | _, _ => none

/-- Binary opcodes of the public combinator surface. -/
inductive BOp where
  | add : BOp
  | sub : BOp
  | mul : BOp
  | div : BOp
  | mod : BOp
  | and : BOp
  | or : BOp
  | min : BOp
  | max : BOp
  | gte : BOp
  | lt : BOp
deriving DecidableEq, Repr

/-- The combinator of each opcode. -/
def BOp.comb : BOp → List Term → List Term → List Term
  | .add, la, lb => addE la lb
  | .sub, la, lb => subE la lb
  | .mul, la, lb => mulE la lb
  | .div, la, lb => divE la lb
  | .mod, la, lb => remE la lb
  | .and, la, lb => andE la lb
  | .or, la, lb => orE la lb
  | .min, la, lb => minE la lb
  | .max, la, lb => maxE la lb
  | .gte, la, lb => gteE la lb
  | .lt, la, lb => ltE la lb

/-- The operator term of each opcode. -/
def BOp.toTerm : BOp → Term
  | .add => Term.add
  | .sub => Term.sub
  | .mul => Term.mul
  | .div => Term.div
  | .mod => Term.mod
  | .and => Term.and
  | .or => Term.or
  | .min => Term.min
  | .max => Term.max
  | .gte => Term.gte
  | .lt => Term.lt

/-- Abstract syntax of expressions formed from scalars, variables and the
public binary combinators. -/
inductive SymExpr where
  | num : Int → SymExpr
  | var : Char → SymExpr
  | bin : BOp → SymExpr → SymExpr → SymExpr
deriving DecidableEq, Repr

/-- Build the concrete expression exactly as the Rust combinators do:
scalars and variables via the `From` conversions, binary nodes via the
operator overloads / named combinators (shortcut identities, raw append in
rhs-lhs-operator order, simplification included). -/
def build : SymExpr → List Term
  | .num n => scalarE n
  | .var c => varE c
  | .bin op a b => op.comb (build a) (build b)

/-- Modelled from the spec: the opcode semantics of section 3 — standard
integer arithmetic (truncated division/remainder, undefined on a zero
divisor), integer min/max, and 0/1-valued And/Or/Gte/Lt. -/
def opSem : BOp → Int → Int → Option Int
  | .add, a, b => some (a + b)
  | .sub, a, b => some (a - b)
  | .mul, a, b => some (a * b)
  | .div, a, b => if b = 0 then none else some (a.tdiv b)
  | .mod, a, b => if b = 0 then none else some (a.tmod b)
  | .min, a, b => some (Min.min a b)
  | .max, a, b => some (Max.max a b)
  | .and, a, b => some (if a ≠ 0 ∧ b ≠ 0 then 1 else 0)
  | .or, a, b => some (if a ≠ 0 ∨ b ≠ 0 then 1 else 0)
  | .gte, a, b => some (if b ≤ a then 1 else 0)
  | .lt, a, b => some (if a < b then 1 else 0)

/-- Modelled from the spec: mathematical evaluation of a combinator tree
under the section-3 opcode semantics (`none` exactly on an unbound variable
or a zero divisor). -/
def denote : SymExpr → (Char → Option Int) → Option Int
  | .num n, _ => some n
  | .var c, env => env c
  | .bin op a b, env =>
      match denote a env, denote b env with
      | some va, some vb => opSem op va vb
      | _, _ => none

/-- Guard neutralising the `x & 1 → x` shortcut of `BitAnd`: whenever one
operand is (or simplifies to) the literal `1`, the other operand must be
boolean-valued. -/
def andGuard (la lb : List Term) (va vb : Int) : Prop :=
  (lb = [Term.num 1] → va = 0 ∨ va = 1) ∧ (la = [Term.num 1] → vb = 0 ∨ vb = 1)

/-- Guard neutralising the `(_ % n) < n → 1` peephole of `lt`: whenever the
built operands syntactically trigger it, the left value must actually be
below the right value. -/
def ltGuard (la lb : List Term) (va vb : Int) : Prop :=
  match lb.head? with
  | some (Term.num n) =>
      (la.getLast? = some Term.mod ∧ la.head? = some (Term.num n)) → va < vb
  | _ => True

/-- Safety precondition for evaluation agreement: every subexpression has a
defined mathematical value in `[0, i32::MAX)` (hence no zero divisors, no
value reaching the infinity sentinel, and no constant fold leaving `i32`),
and the `BitAnd`/`lt` guards hold at every node. -/
def safe : SymExpr → (Char → Option Int) → Prop
  | .num n, _ => inB n
  | .var c, env =>
      match env c with
      | some v => inB v
      | none => False
  | .bin op a b, env =>
      safe a env ∧ safe b env ∧
        (match denote a env, denote b env with
         | some va, some vb =>
             (match opSem op va vb with
              | some v => inB v
              | none => False) ∧
               (op = BOp.and → andGuard (build a) (build b) va vb) ∧
               (op = BOp.lt → ltGuard (build a) (build b) va vb)
         | _, _ => False)

/-- Environment extension `env ∪ {x ↦ v}`. -/
def upd (env : Char → Option Int) (x : Char) (v : Int) : Char → Option Int :=
  fun c => if c = x then some v else env c

/-- Term lists producible by the public API: scalar/char conversions,
`default`, the eleven binary combinators, `substitute`, and `simplify`. -/
inductive Built : List Term → Prop where
  | scalar (n : Int) : Built (scalarE n)
  | dflt : Built defaultE
  | varC (c : Char) : Built (varE c)
  | addB {a b : List Term} : Built a → Built b → Built (addE a b)
  | subB {a b : List Term} : Built a → Built b → Built (subE a b)
  | mulB {a b : List Term} : Built a → Built b → Built (mulE a b)
  | divB {a b : List Term} : Built a → Built b → Built (divE a b)
  | remB {a b : List Term} : Built a → Built b → Built (remE a b)
  | andB {a b : List Term} : Built a → Built b → Built (andE a b)
  | orB {a b : List Term} : Built a → Built b → Built (orE a b)
  | minB {a b : List Term} : Built a → Built b → Built (minE a b)
  | maxB {a b : List Term} : Built a → Built b → Built (maxE a b)
  | gteB {a b : List Term} : Built a → Built b → Built (gteE a b)
  | ltB {a b : List Term} : Built a → Built b → Built (ltE a b)
  | substituteB {a v : List Term} (x : Char) : Built a → Built v → Built (substitute a x v)
  | simplifyB {a : List Term} : Built a → Built (simplify a)

/-! ## Basic facts about the integer casts -/

theorem wrap32_eq_self {c : Int} (h1 : -(2 ^ 31) ≤ c) (h2 : c < 2 ^ 31) :
    wrap32 c = c := by
  unfold wrap32
  have : (c + 2 ^ 31) % 2 ^ 32 = c + 2 ^ 31 := Int.emod_eq_of_lt (by omega) (by omega)
  omega

theorem i64ToUsize_eq_self {i : Int} (h1 : 0 ≤ i) (h2 : i < 2 ^ 64) :
    i64ToUsize i = i := by
  unfold i64ToUsize
  exact Int.emod_eq_of_lt h1 h2

theorem usizeToI64_eq_self {v : Int} (h : v < 2 ^ 63) : usizeToI64 v = v := by
  unfold usizeToI64
  rw [if_pos h]

/-! ## Termination of the peephole rewriter

Every firing rule removes two slots of the term list (a constant fold
overwrites one slot and removes two, the min/max absorptions remove two), so
each `reduceStep` strictly shortens the list, and `t.length + 1` rounds of
fuel always reach the fixed point of the `while changed` loop. -/

theorem length_remove2_lt {t : List Term} {k j : Nat} (hk : k < t.length) :
    (remove2 t k j).length < t.length := by
  unfold remove2
  split
  · have h1 : (t.eraseIdx k).length = t.length - 1 := List.length_eraseIdx_of_lt hk
    calc ((t.eraseIdx k).eraseIdx j).length ≤ (t.eraseIdx k).length :=
          List.length_eraseIdx_le _ _
      _ < t.length := by omega
  · rename_i hjk
    rcases Nat.lt_or_ge j t.length with hj | hj
    · have h1 : (t.eraseIdx j).length = t.length - 1 := List.length_eraseIdx_of_lt hj
      calc ((t.eraseIdx j).eraseIdx k).length ≤ (t.eraseIdx j).length :=
            List.length_eraseIdx_le _ _
        _ < t.length := by omega
    · have h1 : t.eraseIdx j = t := List.eraseIdx_of_length_le hj
      rw [h1]
      have := List.length_eraseIdx_of_lt hk
      omega

theorem length_remove2_set_lt {t : List Term} {i k j : Nat} {v : Term}
    (hk : k < t.length) : (remove2 (t.set i v) k j).length < t.length := by
  have h := length_remove2_lt (t := t.set i v) (k := k) (j := j) (by simpa using hk)
  simpa using h

theorem lt_length_of_get?_eq_some {t : List Term} {k : Nat} {a : Term}
    (h : t.get? k = some a) : k < t.length := by
  by_contra hk
  rw [List.get?_eq_none.mpr (by omega)] at h
  exact Option.noConfusion h

theorem applyTrip_length_lt {t t' : List Term} {trip : Trip}
    (h : applyTrip t trip = some t') : t'.length < t.length := by
  obtain ⟨aI, k, bI⟩ := trip
  unfold applyTrip at h
  simp only at h
  split at h
  · exact Option.noConfusion h
  · rename_i opT hop
    have hk : k < t.length := lt_length_of_get?_eq_some hop
    split at h
    · split at h
      · split at h
        · cases h
          exact length_remove2_set_lt hk
        · exact Option.noConfusion h
      · exact Option.noConfusion h
    · split at h
      · cases h; exact length_remove2_lt hk
      · split at h
        · cases h; exact length_remove2_lt hk
        · split at h
          · split at h
            · cases h; exact length_remove2_lt hk
            · exact Option.noConfusion h
          · split at h
            · split at h
              · cases h; exact length_remove2_lt hk
              · exact Option.noConfusion h
            · exact Option.noConfusion h

theorem firstRewrite_length_lt {t t' : List Term} {trips : List Trip}
    (h : firstRewrite t trips = some t') : t'.length < t.length := by
  induction trips with
  | nil => exact Option.noConfusion h
  | cons trip rest ih =>
    unfold firstRewrite at h
    split at h
    · cases h; exact applyTrip_length_lt (by assumption)
    · exact ih h

theorem reduceStep_length_lt {t t' : List Term}
    (h : reduceStep t = some t') : t'.length < t.length :=
  firstRewrite_length_lt h

theorem reduceStep_rtGo {fuel : Nat} :
    ∀ {t : List Term}, t.length < fuel → reduceStep (rtGo fuel t) = none := by
  induction fuel with
  | zero => intro t h; omega
  | succ f ih =>
    intro t h
    unfold rtGo
    cases hs : reduceStep t with
    | none => simp [hs]
    | some t' =>
      simp only
      exact ih (by have := reduceStep_length_lt hs; omega)

theorem reduceTriples_fix (t : List Term) : reduceStep (reduceTriples t) = none :=
  reduceStep_rtGo (by omega)

theorem rtGo_of_fix {t : List Term} (h : reduceStep t = none) :
    ∀ fuel, rtGo fuel t = t := by
  intro fuel
  cases fuel with
  | zero => rfl
  | succ f => unfold rtGo; rw [h]

theorem simplify_fix {t : List Term} (h : reduceStep t = none) : simplify t = t :=
  rtGo_of_fix h _

/-- C6: simplification is idempotent (proved for every term list; the claim
needs it only for well-formed expressions). -/
theorem simplify_idem (t : List Term) : simplify (simplify t) = simplify t :=
  simplify_fix (reduceTriples_fix t)

/-- C6: for every well-formed expression `e`,
`e.simplify().simplify() == e.simplify()` as a term sequence. -/
theorem C6_simplify_idempotent (e : List Term) (_hwf : WF e) :
    simplify (simplify e) = simplify e :=
  simplify_idem e

/-- Witness for C6 at the concrete well-formed expression `x + 255`. -/
theorem C6_simplify_idempotent_witness :
    simplify (simplify [Term.num 255, Term.var 'x', Term.add]) =
      simplify [Term.num 255, Term.var 'x', Term.add] :=
  C6_simplify_idempotent [Term.num 255, Term.var 'x', Term.add] (by decide)

/-! ## Stack-machine lemmas -/

theorem Term.asOp_cases (tm : Term) :
    (∃ n, tm = .num n) ∨ (∃ c, tm = .var c) ∨ (∃ f, tm.asOp = some f) := by
  cases tm <;> simp [Term.asOp]

theorem execT_op (env : Char → Option Int) {tm : Term} {f : Int → Int → Option Int}
    (hf : tm.asOp = some f) (r : List Term) (a b : Int) (st : List Int) :
    execT env (tm :: r) (a :: b :: st) =
      match f a b with
      | some c => execT env r (c :: st)
      | none => ExecRes.crash := by
  cases tm
  case num n => exact absurd hf (by simp [Term.asOp])
  case var c => exact absurd hf (by simp [Term.asOp])
  all_goals
    simp only [Term.asOp, Option.some.injEq] at hf
  all_goals subst hf
  all_goals rfl

theorem execT_op_nil (env : Char → Option Int) {tm : Term} {f : Int → Int → Option Int}
    (hf : tm.asOp = some f) (r : List Term) :
    execT env (tm :: r) [] = ExecRes.crash := by
  cases tm
  case num n => exact absurd hf (by simp [Term.asOp])
  case var c => exact absurd hf (by simp [Term.asOp])
  all_goals rfl

theorem execT_op_one (env : Char → Option Int) {tm : Term} {f : Int → Int → Option Int}
    (hf : tm.asOp = some f) (r : List Term) (a : Int) :
    execT env (tm :: r) [a] = ExecRes.crash := by
  cases tm
  case num n => exact absurd hf (by simp [Term.asOp])
  case var c => exact absurd hf (by simp [Term.asOp])
  all_goals rfl

theorem wfAux_op {tm : Term} {f : Int → Int → Option Int} (hf : tm.asOp = some f)
    (r : List Term) (d : Nat) : wfAux (tm :: r) (d + 2) = wfAux r (d + 1) := by
  cases tm
  case num n => exact absurd hf (by simp [Term.asOp])
  case var c => exact absurd hf (by simp [Term.asOp])
  all_goals rfl

theorem wfAux_num (n : Int) (r : List Term) (d : Nat) :
    wfAux (Term.num n :: r) d = wfAux r (d + 1) := by
  cases d with
  | zero => rfl
  | succ d' => cases d' <;> rfl

theorem wfAux_var (c : Char) (r : List Term) (d : Nat) :
    wfAux (Term.var c :: r) d = wfAux r (d + 1) := by
  cases d with
  | zero => rfl
  | succ d' => cases d' <;> rfl

theorem wfAux_op_zero {tm : Term} {f : Int → Int → Option Int} (hf : tm.asOp = some f)
    (r : List Term) : wfAux (tm :: r) 0 = none := by
  cases tm
  case num n => exact absurd hf (by simp [Term.asOp])
  case var c => exact absurd hf (by simp [Term.asOp])
  all_goals rfl

theorem wfAux_op_one {tm : Term} {f : Int → Int → Option Int} (hf : tm.asOp = some f)
    (r : List Term) : wfAux (tm :: r) 1 = none := by
  cases tm
  case num n => exact absurd hf (by simp [Term.asOp])
  case var c => exact absurd hf (by simp [Term.asOp])
  all_goals rfl

theorem execT_append (env : Char → Option Int) :
    ∀ (xs ys : List Term) (st : List Int),
      execT env (xs ++ ys) st =
        match execT env xs st with
        | .ok st' => execT env ys st'
        | r => r := by
  intro xs
  induction xs with
  | nil => intro ys st; rfl
  | cons tm r ih =>
    intro ys st
    rcases Term.asOp_cases tm with ⟨n, rfl⟩ | ⟨c, rfl⟩ | ⟨f, hf⟩
    · simpa [execT] using ih ys (n :: st)
    · cases hc : env c with
      | some v => simpa [execT, hc] using ih ys (usizeToI64 v :: st)
      | none => simp [execT, hc]
    · match st with
      | [] => rw [List.cons_append, execT_op_nil env hf, execT_op_nil env hf]
      | [a] => rw [List.cons_append, execT_op_one env hf, execT_op_one env hf]
      | a :: b :: st3 =>
          rw [List.cons_append, execT_op env hf, execT_op env hf]
          cases hab : f a b with
          | some c => simpa using ih ys (c :: st3)
          | none => rfl

theorem execT_extend (env : Char → Option Int) :
    ∀ (t : List Term) (st st' r : List Int),
      execT env t st = ExecRes.ok st' → execT env t (st ++ r) = ExecRes.ok (st' ++ r) := by
  intro t
  induction t with
  | nil => intro st st' r h; cases h; rfl
  | cons tm rest ih =>
    intro st st' r h
    rcases Term.asOp_cases tm with ⟨n, rfl⟩ | ⟨c, rfl⟩ | ⟨f, hf⟩
    · exact ih (n :: st) st' r (by simpa [execT] using h)
    · cases hc : env c with
      | some v =>
          rw [execT, hc] at h ⊢
          exact ih _ st' r h
      | none => rw [execT, hc] at h; exact ExecRes.noConfusion h
    · match st with
      | [] => rw [execT_op_nil env hf] at h; exact ExecRes.noConfusion h
      | [a] => rw [execT_op_one env hf] at h; exact ExecRes.noConfusion h
      | a :: b :: st3 =>
          rw [execT_op env hf] at h
          have hg : (a :: b :: st3) ++ r = a :: b :: (st3 ++ r) := rfl
          rw [hg, execT_op env hf]
          cases hab : f a b with
          | some c =>
              rw [hab] at h
              simpa using ih (c :: st3) st' r h
          | none => rw [hab] at h; exact ExecRes.noConfusion h

theorem execT_ok_length (env : Char → Option Int) :
    ∀ (t : List Term) (st st' : List Int),
      execT env t st = ExecRes.ok st' → wfAux t st.length = some st'.length := by
  intro t
  induction t with
  | nil => intro st st' h; cases h; rfl
  | cons tm rest ih =>
    intro st st' h
    rcases Term.asOp_cases tm with ⟨n, rfl⟩ | ⟨c, rfl⟩ | ⟨f, hf⟩
    · simpa [wfAux] using ih (n :: st) st' (by simpa [execT] using h)
    · cases hc : env c with
      | some v =>
          rw [execT, hc] at h
          simpa [wfAux] using ih _ st' h
      | none => rw [execT, hc] at h; exact ExecRes.noConfusion h
    · match st with
      | [] => rw [execT_op_nil env hf] at h; exact ExecRes.noConfusion h
      | [a] => rw [execT_op_one env hf] at h; exact ExecRes.noConfusion h
      | a :: b :: st3 =>
          rw [execT_op env hf] at h
          cases hab : f a b with
          | some c =>
              rw [hab] at h
              have hw : wfAux (tm :: rest) (a :: b :: st3).length = wfAux rest (st3.length + 1) := by
                show wfAux (tm :: rest) (st3.length + 2) = wfAux rest (st3.length + 1)
                exact wfAux_op hf rest st3.length
              rw [hw]
              simpa using ih (c :: st3) st' h
          | none => rw [hab] at h; exact ExecRes.noConfusion h

theorem execT_ne_unbound (env : Char → Option Int) :
    ∀ (t : List Term) (st : List Int), (∀ c ∈ toSymbols t, (env c).isSome) →
      execT env t st ≠ ExecRes.unbound := by
  intro t
  induction t with
  | nil => intro st _ h; exact ExecRes.noConfusion h
  | cons tm rest ih =>
    intro st hb h
    rcases Term.asOp_cases tm with ⟨n, rfl⟩ | ⟨c, rfl⟩ | ⟨f, hf⟩
    · exact ih (n :: st) (fun c hc => hb c (by simpa [toSymbols] using hc))
        (by simpa [execT] using h)
    · have hc : (env c).isSome := hb c (by simp [toSymbols])
      cases hev : env c with
      | some v =>
          rw [execT, hev] at h
          refine ih _ (fun d hd => hb d ?_) h
          simpa [toSymbols] using Or.inr hd
      | none => rw [hev] at hc; exact Bool.noConfusion hc
    · have hsy : ∀ c ∈ toSymbols rest, (env c).isSome := by
        intro c hc
        refine hb c ?_
        unfold toSymbols at hc ⊢
        rw [List.filterMap_cons]
        split
        · exact hc
        · exact List.mem_cons_of_mem _ hc
      match st with
      | [] => rw [execT_op_nil env hf] at h; exact ExecRes.noConfusion h
      | [a] => rw [execT_op_one env hf] at h; exact ExecRes.noConfusion h
      | a :: b :: st3 =>
          rw [execT_op env hf] at h
          cases hab : f a b with
          | some c => rw [hab] at h; exact ih (c :: st3) hsy h
          | none => rw [hab] at h; exact ExecRes.noConfusion h

theorem execT_unbound_or_crash (env : Char → Option Int) :
    ∀ (t : List Term) (st : List Int), (∃ c ∈ toSymbols t, env c = none) →
      execT env t st = ExecRes.unbound ∨ execT env t st = ExecRes.crash := by
  intro t
  induction t with
  | nil => intro st h; simp [toSymbols] at h
  | cons tm rest ih =>
    intro st hex
    rcases Term.asOp_cases tm with ⟨n, rfl⟩ | ⟨c, rfl⟩ | ⟨f, hf⟩
    · have : ∃ c ∈ toSymbols rest, env c = none := by
        simpa [toSymbols] using hex
      simpa [execT] using ih (n :: st) this
    · cases hev : env c with
      | some v =>
          have : ∃ d ∈ toSymbols rest, env d = none := by
            rcases hex with ⟨d, hd, hdn⟩
            rcases (by simpa [toSymbols] using hd : d = c ∨ d ∈ toSymbols rest) with h1 | h1
            · subst h1; rw [hev] at hdn; exact Option.noConfusion hdn
            · exact ⟨d, h1, hdn⟩
          rw [execT, hev]
          exact ih _ this
      | none => rw [execT, hev]; left; rfl
    · have hex' : ∃ c ∈ toSymbols rest, env c = none := by
        rcases hex with ⟨d, hd, hdn⟩
        refine ⟨d, ?_, hdn⟩
        unfold toSymbols at hd
        rw [List.filterMap_cons] at hd
        revert hd
        split
        · exact id
        · rename_i tm' v hsome
          intro hd
          rcases List.mem_cons.mp hd with h1 | h1
          · exfalso
            cases tm <;> simp [Term.asOp] at hf hsome
          · exact h1
      match st with
      | [] => rw [execT_op_nil env hf]; right; rfl
      | [a] => rw [execT_op_one env hf]; right; rfl
      | a :: b :: st3 =>
          rw [execT_op env hf]
          cases hab : f a b with
          | some c => exact ih (c :: st3) hex'
          | none => right; rfl

/-! ## Segment algebra for the postfix representation -/

theorem wfAux_append : ∀ (xs ys : List Term) (d : Nat),
    wfAux (xs ++ ys) d = (wfAux xs d).bind fun e => wfAux ys e := by
  intro xs
  induction xs with
  | nil => intro ys d; rfl
  | cons tm r ih =>
    intro ys d
    rcases Term.asOp_cases tm with ⟨n, rfl⟩ | ⟨c, rfl⟩ | ⟨f, hf⟩
    · rw [List.cons_append, wfAux_num, wfAux_num]
      exact ih ys (d + 1)
    · rw [List.cons_append, wfAux_var, wfAux_var]
      exact ih ys (d + 1)
    · match d with
      | 0 => rw [List.cons_append, wfAux_op_zero hf, wfAux_op_zero hf]; rfl
      | 1 => rw [List.cons_append, wfAux_op_one hf, wfAux_op_one hf]; rfl
      | d' + 2 =>
          rw [List.cons_append, wfAux_op hf, wfAux_op hf]
          exact ih ys (d' + 1)

theorem wfAux_shift : ∀ (L : List Term) (d e k : Nat),
    wfAux L d = some e → wfAux L (d + k) = some (e + k) := by
  intro L
  induction L with
  | nil => intro d e k h; cases h; rfl
  | cons tm r ih =>
    intro d e k h
    rcases Term.asOp_cases tm with ⟨n, rfl⟩ | ⟨c, rfl⟩ | ⟨f, hf⟩
    · rw [wfAux_num] at h
      rw [wfAux_num]
      have h2 := ih (d + 1) e k h
      have he : d + 1 + k = d + k + 1 := by omega
      rw [he] at h2
      exact h2
    · rw [wfAux_var] at h
      rw [wfAux_var]
      have h2 := ih (d + 1) e k h
      have he : d + 1 + k = d + k + 1 := by omega
      rw [he] at h2
      exact h2
    · match d with
      | 0 => rw [wfAux_op_zero hf] at h; exact Option.noConfusion h
      | 1 => rw [wfAux_op_one hf] at h; exact Option.noConfusion h
      | d' + 2 =>
          rw [wfAux_op hf] at h
          have : d' + 2 + k = (d' + k) + 2 := by omega
          rw [this, wfAux_op hf]
          have h2 := ih (d' + 1) e k h
          have : d' + 1 + k = (d' + k) + 1 := by omega
          rw [this] at h2
          exact h2

theorem blockOne_wfAux {L : List Term} (h : blockOne L) (d : Nat) :
    wfAux L d = some (d + 1) := by
  have := wfAux_shift L 0 1 d h
  simpa [Nat.add_comm] using this

theorem wfAux_pos : ∀ (L : List Term) (d e : Nat), L ≠ [] →
    wfAux L d = some e → 1 ≤ e := by
  intro L
  induction L with
  | nil => intro d e h; exact absurd rfl h
  | cons tm r ih =>
    intro d e _ h
    rcases Term.asOp_cases tm with ⟨n, rfl⟩ | ⟨c, rfl⟩ | ⟨f, hf⟩
    · rw [wfAux_num] at h
      rcases r with _ | ⟨x, xs⟩
      · simp [wfAux] at h
        omega
      · exact ih (d + 1) e (by simp) h
    · rw [wfAux_var] at h
      rcases r with _ | ⟨x, xs⟩
      · simp [wfAux] at h
        omega
      · exact ih (d + 1) e (by simp) h
    · match d with
      | 0 => rw [wfAux_op_zero hf] at h; exact Option.noConfusion h
      | 1 => rw [wfAux_op_one hf] at h; exact Option.noConfusion h
      | d' + 2 =>
          rw [wfAux_op hf] at h
          rcases r with _ | ⟨x, xs⟩
          · cases h; omega
          · exact ih (d' + 1) e (by simp) h

theorem seg_concat (t : List Term) {a b c : Nat} (hab : a ≤ b) (hbc : b ≤ c) :
    seg t a c = seg t a b ++ seg t b c := by
  unfold seg
  have h1 : c - a = (b - a) + (c - b) := by omega
  rw [h1, List.take_add]
  congr 1
  rw [List.drop_drop]
  have h2 : a + (b - a) = b := by omega
  rw [h2]

theorem seg_single {t : List Term} {i : Nat} {x : Term} {r : List Term}
    (h : t.drop i = x :: r) : seg t i (i + 1) = [x] := by
  unfold seg
  rw [h]
  simp

theorem drop_succ_of_drop_cons {t : List Term} {i : Nat} {x : Term} {r : List Term}
    (h : t.drop i = x :: r) : t.drop (i + 1) = r := by
  rw [← List.tail_drop, h]
  rfl

theorem lt_length_of_drop_cons {t : List Term} {i : Nat} {x : Term} {r : List Term}
    (h : t.drop i = x :: r) : i < t.length := by
  by_contra hc
  rw [List.drop_eq_nil_of_le (by omega)] at h
  exact List.noConfusion h

/-! ## The triple invariant of `get_triples`

Each triple recorded by the walk spans two adjacent one-value blocks and
their operator, so each rewrite of `reduce_triples` is a contiguous
block replacement. -/

theorem Term.isLeaf_elim {tm : Term} (h : tm.isLeaf = true) :
    (∃ n, tm = .num n) ∨ (∃ c, tm = .var c) := by
  cases tm <;> simp_all [Term.isLeaf]

theorem blockOne_leaf {tm : Term} (h : tm.isLeaf = true) : blockOne [tm] := by
  rcases Term.isLeaf_elim h with ⟨n, rfl⟩ | ⟨c, rfl⟩ <;> rfl

theorem gtAux_op {tm : Term} {f : Int → Int → Option Int} (hf : tm.asOp = some f)
    (r : List Term) (i : Nat) (a b : Option Nat × Term)
    (st : List (Option Nat × Term)) :
    gtAux (tm :: r) i (a :: b :: st) =
      (a.1, i, b.1) ::
        (match a.2, b.2 with
         | .num x, .num y =>
             match f x y with
             | some c => gtAux r (i + 1) ((none, .num (wrap32 c)) :: st)
             | none => []
         | .var v, _ => gtAux r (i + 1) ((none, .var v) :: st)
         | _, .var v => gtAux r (i + 1) ((none, .var v) :: st)
         | _, _ => gtAux r (i + 1) st) := by
  cases tm
  case num n => exact absurd hf (by simp [Term.asOp])
  case var c => exact absurd hf (by simp [Term.asOp])
  all_goals
    simp only [Term.asOp, Option.some.injEq] at hf
  all_goals subst hf
  all_goals rfl

theorem gtAux_op_nil {tm : Term} {f : Int → Int → Option Int} (hf : tm.asOp = some f)
    (r : List Term) (i : Nat) : gtAux (tm :: r) i [] = [] := by
  cases tm
  case num n => exact absurd hf (by simp [Term.asOp])
  case var c => exact absurd hf (by simp [Term.asOp])
  all_goals rfl

theorem gtAux_op_one {tm : Term} {f : Int → Int → Option Int} (hf : tm.asOp = some f)
    (r : List Term) (i : Nat) (a : Option Nat × Term) :
    gtAux (tm :: r) i [a] = [] := by
  cases tm
  case num n => exact absurd hf (by simp [Term.asOp])
  case var c => exact absurd hf (by simp [Term.asOp])
  all_goals rfl

theorem blockOne_merge {t : List Term} {sb sa i : Nat} {tm : Term}
    {f : Int → Int → Option Int} {r : List Term} (hf : tm.asOp = some f)
    (hsble : sb ≤ sa) (hsale : sa ≤ i) (hb : blockOne (seg t sb sa))
    (ha : blockOne (seg t sa i)) (hdrop : t.drop i = tm :: r) :
    blockOne (seg t sb (i + 1)) := by
  have h1 : seg t sb (i + 1) = seg t sb sa ++ (seg t sa i ++ seg t i (i + 1)) := by
    rw [seg_concat t hsble (by omega : sa ≤ i + 1), seg_concat t hsale (by omega : i ≤ i + 1)]
  have h2 : seg t i (i + 1) = [tm] := seg_single hdrop
  unfold blockOne at hb ha ⊢
  rw [h1, h2, wfAux_append, hb]
  show wfAux (seg t sa i ++ [tm]) 1 = some 1
  rw [wfAux_append, wfAux_shift _ 0 1 1 ha]
  show wfAux (tm :: []) 2 = some 1
  rw [wfAux_op hf]
  rfl

theorem gt_inv (t : List Term) :
    ∀ (cur : List Term) (i : Nat) (st : List (Option Nat × Term)),
      t.drop i = cur → StkInv t i st →
      ∀ trip ∈ gtAux cur i st, TripInv t trip := by
  intro cur
  induction cur with
  | nil => intro i st _ _ trip h; simp [gtAux] at h
  | cons tm r ih =>
    intro i st hdrop hinv trip hmem
    rcases Term.asOp_cases tm with ⟨n, rfl⟩ | ⟨c, rfl⟩ | ⟨f, hf⟩
    · refine ih (i + 1) _ (drop_succ_of_drop_cons hdrop) ?_ trip (by simpa [gtAux] using hmem)
      refine ⟨rfl, i, Nat.le_succ i, ?_, ?_, hinv⟩
      · rw [seg_single hdrop]; exact blockOne_leaf rfl
      · intro j hj; cases hj; exact ⟨rfl, rfl⟩
    · refine ih (i + 1) _ (drop_succ_of_drop_cons hdrop) ?_ trip (by simpa [gtAux] using hmem)
      refine ⟨rfl, i, Nat.le_succ i, ?_, ?_, hinv⟩
      · rw [seg_single hdrop]; exact blockOne_leaf rfl
      · intro j hj; cases hj; exact ⟨rfl, rfl⟩
    · match st, hinv with
      | [], _ => rw [gtAux_op_nil hf] at hmem; simp at hmem
      | [a], _ => rw [gtAux_op_one hf] at hmem; simp at hmem
      | a :: b :: st', hinv =>
        simp only [StkInv] at hinv
        obtain ⟨haL, sa, hsale, hsablk, hsaidx, hbL, sb, hsble, hsbblk, hsbidx, hrest⟩ := hinv
        rw [gtAux_op hf] at hmem
        rcases List.mem_cons.mp hmem with rfl | hmem'
        · exact ⟨sb, sa, hsble, hsale, lt_length_of_drop_cons hdrop,
            hsbblk, hsablk, hsaidx, hsbidx⟩
        · have hblk1 : blockOne (seg t sb (i + 1)) :=
            blockOne_merge hf hsble hsale hsbblk hsablk hdrop
          have hsble' : sb ≤ i + 1 := by omega
          have hdrop' : t.drop (i + 1) = r := drop_succ_of_drop_cons hdrop
          have hnone : ∀ (tm' : Term), StkInv t (i + 1) ((none, tm') :: st') →
              trip ∈ gtAux r (i + 1) ((none, tm') :: st') → TripInv t trip :=
            fun tm' hv hm => ih (i + 1) _ hdrop' hv trip hm
          rcases Term.isLeaf_elim haL with ⟨x, hax⟩ | ⟨v, hav⟩
          · rcases Term.isLeaf_elim hbL with ⟨y, hby⟩ | ⟨w, hbw⟩
            · rw [hax, hby] at hmem'
              simp only at hmem'
              cases hfo : f x y with
              | some c =>
                  rw [hfo] at hmem'
                  refine hnone _ ?_ hmem'
                  exact ⟨rfl, sb, hsble', hblk1, fun j hj => absurd hj (by simp), hrest⟩
              | none => rw [hfo] at hmem'; simp at hmem'
            · rw [hax, hbw] at hmem'
              simp only at hmem'
              refine hnone _ ?_ hmem'
              exact ⟨rfl, sb, hsble', hblk1, fun j hj => absurd hj (by simp), hrest⟩
          · rw [hav] at hmem'
            simp only at hmem'
            refine hnone _ ?_ hmem'
            exact ⟨rfl, sb, hsble', hblk1, fun j hj => absurd hj (by simp), hrest⟩

/-! ## List-surgery helpers and the bounded evaluator's step equations -/

theorem drop_eq_cons_of_get? {t : List Term} {i : Nat} {x : Term}
    (h : t.get? i = some x) : t.drop i = x :: t.drop (i + 1) := by
  rcases List.get?_eq_some.mp h with ⟨hlt, hget⟩
  rw [List.drop_eq_get_cons hlt, hget]

theorem take_append_seg (t : List Term) {a b : Nat} (hab : a ≤ b) :
    t.take a ++ seg t a b = t.take b := by
  unfold seg
  rw [← List.take_add]
  congr 1
  omega

theorem take_seg_drop (t : List Term) {a b : Nat} (hab : a ≤ b) :
    t.take a ++ (seg t a b ++ t.drop b) = t := by
  rw [← List.append_assoc, take_append_seg t hab, List.take_append_drop]

theorem length_take_of_le {t : List Term} {i : Nat} (h : i ≤ t.length) :
    (t.take i).length = i := by
  rw [List.length_take]
  omega

theorem blockOne_single_isLeaf {x : Term} (h : blockOne [x]) : x.isLeaf = true := by
  rcases Term.asOp_cases x with ⟨n, rfl⟩ | ⟨c, rfl⟩ | ⟨f, hf⟩
  · rfl
  · rfl
  · exfalso
    unfold blockOne at h
    rw [wfAux_op_zero hf] at h
    exact Option.noConfusion h

theorem bexecT_op (env : Char → Option Int) {tm : Term} {f : Int → Int → Option Int}
    (hf : tm.asOp = some f) (r : List Term) (a b : Int) (st : List Int) :
    bexecT env (tm :: r) (a :: b :: st) =
      match f a b with
      | some c => if inB c then bexecT env r (c :: st) else none
      | none => none := by
  cases tm
  case num n => exact absurd hf (by simp [Term.asOp])
  case var c => exact absurd hf (by simp [Term.asOp])
  all_goals
    simp only [Term.asOp, Option.some.injEq] at hf
  all_goals subst hf
  all_goals rfl

theorem bexecT_op_nil (env : Char → Option Int) {tm : Term} {f : Int → Int → Option Int}
    (hf : tm.asOp = some f) (r : List Term) : bexecT env (tm :: r) [] = none := by
  cases tm
  case num n => exact absurd hf (by simp [Term.asOp])
  case var c => exact absurd hf (by simp [Term.asOp])
  all_goals rfl

theorem bexecT_op_one (env : Char → Option Int) {tm : Term} {f : Int → Int → Option Int}
    (hf : tm.asOp = some f) (r : List Term) (a : Int) :
    bexecT env (tm :: r) [a] = none := by
  cases tm
  case num n => exact absurd hf (by simp [Term.asOp])
  case var c => exact absurd hf (by simp [Term.asOp])
  all_goals rfl

theorem bexecT_append (env : Char → Option Int) :
    ∀ (xs ys : List Term) (st : List Int),
      bexecT env (xs ++ ys) st = (bexecT env xs st).bind (bexecT env ys) := by
  intro xs
  induction xs with
  | nil => intro ys st; rfl
  | cons tm r ih =>
    intro ys st
    rcases Term.asOp_cases tm with ⟨n, rfl⟩ | ⟨c, rfl⟩ | ⟨f, hf⟩
    · show (if inB n then bexecT env (r ++ ys) (n :: st) else none) =
        (if inB n then bexecT env r (n :: st) else none).bind (bexecT env ys)
      by_cases hn : inB n
      · rw [if_pos hn, if_pos hn]
        exact ih ys (n :: st)
      · rw [if_neg hn, if_neg hn]
        rfl
    · cases hc : env c with
      | some v =>
          rw [List.cons_append, bexecT, hc, bexecT, hc]
          by_cases hv : inB (usizeToI64 v)
          · simp only [if_pos hv]
            exact ih ys (usizeToI64 v :: st)
          · simp [if_neg hv]
      | none => rw [List.cons_append, bexecT, hc, bexecT, hc]; rfl
    · match st with
      | [] => rw [List.cons_append, bexecT_op_nil env hf, bexecT_op_nil env hf]; rfl
      | [a] => rw [List.cons_append, bexecT_op_one env hf, bexecT_op_one env hf]; rfl
      | a :: b :: st3 =>
          rw [List.cons_append, bexecT_op env hf, bexecT_op env hf]
          cases hab : f a b with
          | some c =>
              by_cases hc : inB c
              · simp only [if_pos hc]
                exact ih ys (c :: st3)
              · simp [if_neg hc]
          | none => rfl

theorem bexecT_no_inf (env : Char → Option Int) :
    ∀ (L : List Term) (st st2 : List Int), Term.num i32Max ∈ L →
      bexecT env L st ≠ some st2 := by
  intro L
  induction L with
  | nil => intro st st2 h; simp at h
  | cons tm r ih =>
    intro st st2 hmem h
    rcases List.mem_cons.mp hmem with rfl | hmem'
    · have : ¬ inB i32Max := by
        unfold inB i32Max
        omega
      rw [show bexecT env (Term.num i32Max :: r) st =
            (if inB i32Max then bexecT env r (i32Max :: st) else none) from rfl,
        if_neg this] at h
      exact Option.noConfusion h
    · rcases Term.asOp_cases tm with ⟨n, rfl⟩ | ⟨c, rfl⟩ | ⟨f, hf⟩
      · rw [show bexecT env (Term.num n :: r) st =
              (if inB n then bexecT env r (n :: st) else none) from rfl] at h
        split at h
        · exact ih _ st2 hmem' h
        · exact Option.noConfusion h
      · rw [bexecT] at h
        cases hc : env c with
        | some v =>
            rw [hc] at h
            simp only at h
            by_cases hv : inB (usizeToI64 v)
            · rw [if_pos hv] at h
              exact ih _ st2 hmem' h
            · rw [if_neg hv] at h
              exact Option.noConfusion h
        | none =>
            rw [hc] at h
            simp only at h
            exact Option.noConfusion h
      · match st with
        | [] => rw [bexecT_op_nil env hf] at h; exact Option.noConfusion h
        | [a] => rw [bexecT_op_one env hf] at h; exact Option.noConfusion h
        | a :: b :: st3 =>
            rw [bexecT_op env hf] at h
            cases hab : f a b with
            | some c =>
                rw [hab] at h
                simp only at h
                by_cases hc2 : inB c
                · rw [if_pos hc2] at h
                  exact ih _ st2 hmem' h
                · rw [if_neg hc2] at h
                  exact Option.noConfusion h
            | none =>
                rw [hab] at h
                simp only at h
                exact Option.noConfusion h

theorem set_at_head : ∀ (pre : List Term) (x w : Term) (l : List Term),
    (pre ++ x :: l).set pre.length w = pre ++ w :: l := by
  intro pre
  induction pre with
  | nil => intro x w l; rfl
  | cons p ps ih =>
      intro x w l
      show p :: (ps ++ x :: l).set ps.length w = p :: (ps ++ w :: l)
      rw [ih x w l]

theorem erase_at_head : ∀ (pre : List Term) (x : Term) (l : List Term),
    (pre ++ x :: l).eraseIdx pre.length = pre ++ l := by
  intro pre
  induction pre with
  | nil => intro x l; rfl
  | cons p ps ih =>
      intro x l
      show p :: (ps ++ x :: l).eraseIdx ps.length = p :: (ps ++ l)
      rw [ih x l]

theorem seg_length {t : List Term} {i j : Nat} (hij : i ≤ j) (hj : j ≤ t.length) :
    (seg t i j).length = j - i := by
  unfold seg
  rw [List.length_take, List.length_drop]
  omega

theorem seg_single_of_get? {t : List Term} {i : Nat} {x : Term}
    (h : t.get? i = some x) : seg t i (i + 1) = [x] :=
  seg_single (drop_eq_cons_of_get? h)

theorem seg_append_drop (t : List Term) {a b : Nat} (hab : a ≤ b) :
    seg t a b ++ t.drop b = t.drop a := by
  unfold seg
  conv_rhs => rw [← List.take_append_drop (b - a) (t.drop a)]
  congr 1
  rw [List.drop_drop]
  congr 1
  omega

theorem erase_at_head1 (pre : List Term) (x0 x : Term) (l : List Term) :
    (pre ++ x0 :: x :: l).eraseIdx (pre.length + 1) = pre ++ x0 :: l := by
  have h := erase_at_head (pre ++ [x0]) x l
  simpa using h

theorem erase_at_head2 (pre : List Term) (x0 x1 x : Term) (l : List Term) :
    (pre ++ x0 :: x1 :: x :: l).eraseIdx (pre.length + 2) = pre ++ x0 :: x1 :: l := by
  have h := erase_at_head (pre ++ [x0, x1]) x l
  simpa [Nat.add_assoc] using h

theorem set_at_head1 (pre : List Term) (x0 x w : Term) (l : List Term) :
    (pre ++ x0 :: x :: l).set (pre.length + 1) w = pre ++ x0 :: w :: l := by
  have h := set_at_head (pre ++ [x0]) x w l
  simpa using h

/-- Every firing rewrite of `reduce_triples` is a contiguous replacement of
a one-value block by a one-value block that evaluates identically under the
bounded evaluator. -/
theorem applyTrip_surgery {t t' : List Term} {aI bI : Option Nat} {k : Nat}
    (hinv : TripInv t (aI, k, bI)) (happ : applyTrip t (aI, k, bI) = some t') :
    ∃ pre mid mid' suf,
      t = pre ++ (mid ++ suf) ∧ t' = pre ++ (mid' ++ suf) ∧
        blockOne mid ∧ blockOne mid' ∧
        (∀ (env : Char → Option Int) (st st2 : List Int),
          bexecT env mid st = some st2 → bexecT env mid' st = some st2) := by
  simp only [TripInv] at hinv
  obtain ⟨sb, sa, hsble, hsale, hklen, hsbblk, hsablk, haidx, hbidx⟩ := hinv
  have haIex : ∀ {tm : Term}, aI.bind t.get? = some tm →
      aI = some sa ∧ t.get? sa = some tm ∧ k = sa + 1 := by
    intro tm h
    cases aI with
    | none => simp at h
    | some ia =>
        simp only [Option.some_bind] at h
        obtain ⟨h1, h2⟩ := haidx ia rfl
        subst h1
        exact ⟨rfl, h, h2.symm⟩
  have hbIex : ∀ {tm : Term}, bI.bind t.get? = some tm →
      bI = some sb ∧ t.get? sb = some tm ∧ sa = sb + 1 := by
    intro tm h
    cases bI with
    | none => simp at h
    | some ib =>
        simp only [Option.some_bind] at h
        obtain ⟨h1, h2⟩ := hbidx ib rfl
        subst h1
        exact ⟨rfl, h, h2.symm⟩
  have hsalen : sa ≤ t.length := by omega
  have hsblen : sb ≤ t.length := by omega
  have hlen_sb : (t.take sb).length = sb := length_take_of_le hsblen
  have hlen_sa : (t.take sa).length = sa := length_take_of_le hsalen
  unfold applyTrip at happ
  simp only at happ
  cases hop : t.get? k with
  | none => rw [hop] at happ; exact Option.noConfusion happ
  | some opT =>
  rw [hop] at happ
  simp only at happ
  split at happ
  · -- constant-fold arm
    rename_i a' b' haT hbT
    obtain ⟨haI, hga, hk⟩ := haIex haT
    obtain ⟨hbI, hgb, hsa⟩ := hbIex hbT
    subst haI
    subst hbI
    simp only [Option.getD_some] at happ
    cases hfop : opT.asOp with
    | none => rw [hfop] at happ; simp only at happ; exact Option.noConfusion happ
    | some f =>
    rw [hfop] at happ
    simp only at happ
    cases hfab : f a' b' with
    | none => rw [hfab] at happ; simp only at happ; exact Option.noConfusion happ
    | some c =>
    rw [hfab] at happ
    simp only at happ
    have ht' := Option.some.inj happ
    subst hsa
    subst hk
    have hd1 := drop_eq_cons_of_get? hgb
    have hd2 := drop_eq_cons_of_get? hga
    have hd3 := drop_eq_cons_of_get? hop
    have ht : t = t.take sb ++
        (Term.num b' :: Term.num a' :: opT :: t.drop (sb + 1 + 1 + 1)) := by
      conv_lhs => rw [← List.take_append_drop sb t]
      rw [hd1, hd2, hd3]
    refine ⟨t.take sb, [Term.num b', Term.num a', opT], [Term.num (wrap32 c)],
      t.drop (sb + 1 + 1 + 1), ht, ?_, ?_, ?_, ?_⟩
    · -- the rewritten list
      rw [← ht']
      unfold remove2
      rw [if_pos (by omega : sb ≤ sb + 1 + 1)]
      have hset : t.set (sb + 1) (Term.num (wrap32 c)) =
          t.take sb ++ Term.num b' :: Term.num (wrap32 c) :: opT ::
            t.drop (sb + 1 + 1 + 1) := by
        conv_lhs => rw [ht]
        have h := set_at_head1 (t.take sb) (Term.num b') (Term.num a')
          (Term.num (wrap32 c)) (opT :: t.drop (sb + 1 + 1 + 1))
        rw [hlen_sb] at h
        exact h
      rw [hset]
      have he1 := erase_at_head2 (t.take sb) (Term.num b') (Term.num (wrap32 c)) opT
        (t.drop (sb + 1 + 1 + 1))
      rw [hlen_sb] at he1
      rw [show sb + 1 + 1 = sb + 2 from rfl, he1]
      have he2 := erase_at_head (t.take sb) (Term.num b')
        (Term.num (wrap32 c) :: t.drop (sb + 1 + 1 + 1))
      rw [hlen_sb] at he2
      rw [he2]
      rfl
    · unfold blockOne
      rw [wfAux_num, wfAux_num, wfAux_op hfop]
      rfl
    · rfl
    · intro env st st2 hbx
      have e1 : bexecT env [Term.num b', Term.num a', opT] st =
          (if inB b' then
            (if inB a' then bexecT env [opT] (a' :: b' :: st) else none)
          else none) := rfl
      rw [e1] at hbx
      by_cases hb' : inB b'
      · rw [if_pos hb'] at hbx
        by_cases ha' : inB a'
        · rw [if_pos ha'] at hbx
          rw [bexecT_op env hfop [] a' b' st, hfab] at hbx
          simp only at hbx
          by_cases hc' : inB c
          · rw [if_pos hc'] at hbx
            have hw : wrap32 c = c := wrap32_eq_self (by
                obtain ⟨h1, h2⟩ := hc'
                omega) (by
                obtain ⟨h1, h2⟩ := hc'
                omega)
            show (if inB (wrap32 c) then some (wrap32 c :: st) else none) = some st2
            rw [hw, if_pos hc']
            exact hbx
          · rw [if_neg hc'] at hbx
            exact Option.noConfusion hbx
        · rw [if_neg ha'] at hbx
          exact Option.noConfusion hbx
      · rw [if_neg hb'] at hbx
        exact Option.noConfusion hbx
  · -- absorption arms: the `if` chain
    split_ifs at happ with h1 h2 h3 h4
    · -- min with `Num(INF)` as the popped-first operand
      obtain ⟨haT, hmin⟩ := h1
      obtain ⟨haI, hga, hk⟩ := haIex haT
      subst haI
      subst hmin
      simp only [Option.getD_some] at happ
      have ht' := Option.some.inj happ
      subst hk
      have hd2 := drop_eq_cons_of_get? hga
      have hd3 := drop_eq_cons_of_get? hop
      have ht : t = t.take sb ++
          ((seg t sb sa ++ [Term.num i32Max, Term.min]) ++ t.drop (sa + 1 + 1)) := by
        conv_lhs => rw [← take_seg_drop t hsble]
        rw [hd2, hd3]
        simp
      refine ⟨t.take sb, seg t sb sa ++ [Term.num i32Max, Term.min], seg t sb sa,
        t.drop (sa + 1 + 1), ht, ?_, ?_, hsbblk, ?_⟩
      · rw [← ht']
        unfold remove2
        rw [if_pos (by omega : sa ≤ sa + 1)]
        have ht2 : t = t.take sa ++ Term.num i32Max :: Term.min ::
            t.drop (sa + 1 + 1) := by
          conv_lhs => rw [← List.take_append_drop sa t]
          rw [hd2, hd3]
        have hstep1 : t.eraseIdx (sa + 1) =
            t.take sa ++ Term.num i32Max :: t.drop (sa + 1 + 1) := by
          conv_lhs => rw [ht2]
          have he1 := erase_at_head1 (t.take sa) (Term.num i32Max) Term.min
            (t.drop (sa + 1 + 1))
          rw [hlen_sa] at he1
          exact he1
        rw [hstep1]
        have hstep2 := erase_at_head (t.take sa) (Term.num i32Max)
          (t.drop (sa + 1 + 1))
        rw [hlen_sa] at hstep2
        rw [hstep2]
        rw [← take_append_seg t hsble, List.append_assoc]
      · unfold blockOne
        rw [wfAux_append, hsbblk]
        rfl
      · intro env st st2 hbx
        exact absurd hbx (bexecT_no_inf env _ st st2
          (List.mem_append_right _ (by simp)))
    · -- min with `Num(INF)` as the second popped operand
      obtain ⟨hmin, hbT⟩ := h2
      obtain ⟨hbI, hgb, hsa⟩ := hbIex hbT
      subst hbI
      subst hmin
      simp only [Option.getD_some] at happ
      have ht' := Option.some.inj happ
      subst hsa
      have haseg : (seg t (sb + 1) k).length = k - (sb + 1) :=
        seg_length (by omega) (by omega)
      have hd1 := drop_eq_cons_of_get? hgb
      have hd3 := drop_eq_cons_of_get? hop
      have hdsa : seg t (sb + 1) k ++ t.drop k = t.drop (sb + 1) :=
        seg_append_drop t (by omega)
      have ht : t = t.take sb ++
          ((Term.num i32Max :: (seg t (sb + 1) k ++ [Term.min])) ++
            t.drop (k + 1)) := by
        conv_lhs => rw [← List.take_append_drop sb t]
        rw [hd1, ← hdsa, hd3]
        simp
      refine ⟨t.take sb, Term.num i32Max :: (seg t (sb + 1) k ++ [Term.min]),
        seg t (sb + 1) k, t.drop (k + 1), ht, ?_, ?_, hsablk, ?_⟩
      · rw [← ht']
        unfold remove2
        rw [if_pos (by omega : sb ≤ k)]
        have hpre3 : (t.take sb ++ Term.num i32Max :: seg t (sb + 1) k).length
            = k := by
          rw [List.length_append, hlen_sb, List.length_cons, haseg]
          omega
        have ht3 : t = (t.take sb ++ Term.num i32Max :: seg t (sb + 1) k) ++
            Term.min :: t.drop (k + 1) := by
          conv_lhs => rw [← List.take_append_drop sb t]
          rw [hd1, ← hdsa, hd3]
          simp
        have hstep1 : t.eraseIdx k = t.take sb ++ Term.num i32Max ::
            (seg t (sb + 1) k ++ t.drop (k + 1)) := by
          conv_lhs => rw [ht3]
          have he1 := erase_at_head (t.take sb ++ Term.num i32Max :: seg t (sb + 1) k)
            Term.min (t.drop (k + 1))
          rw [hpre3] at he1
          rw [he1]
          simp
        rw [hstep1]
        have he2 := erase_at_head (t.take sb) (Term.num i32Max)
          (seg t (sb + 1) k ++ t.drop (k + 1))
        rw [hlen_sb] at he2
        rw [he2]
      · unfold blockOne
        show wfAux (Term.num i32Max :: (seg t (sb + 1) k ++ [Term.min])) 0 = some 1
        rw [wfAux_num, wfAux_append, wfAux_shift _ 0 1 1 hsablk]
        rfl
      · intro env st st2 hbx
        exact absurd hbx (bexecT_no_inf env _ st st2 (by simp))
    · -- max with `Num(INF)` as the second popped operand, leaf first operand
      obtain ⟨hmax, hbT⟩ := h3
      obtain ⟨hbI, hgb, hsa⟩ := hbIex hbT
      subst hbI
      cases haI : aI with
      | none => rw [haI] at happ; exact Option.noConfusion happ
      | some ia =>
      rw [haI] at happ
      simp only at happ
      obtain ⟨hia, hk⟩ := haidx ia haI
      subst hia
      subst hmax
      have ht' := Option.some.inj happ
      subst hsa
      subst hk
      have hsa_lt : sb + 1 < t.length := by omega
      cases hgat : t.get? (sb + 1) with
      | none =>
          have hc := List.get?_eq_none.mp hgat
          omega
      | some aTm =>
      have haleaf : aTm.isLeaf = true := by
        have hseq : seg t (sb + 1) (sb + 1 + 1) = [aTm] := seg_single_of_get? hgat
        rw [hseq] at hsablk
        exact blockOne_single_isLeaf hsablk
      have hd1 := drop_eq_cons_of_get? hgb
      have hd2 := drop_eq_cons_of_get? hgat
      have hd3 := drop_eq_cons_of_get? hop
      have ht : t = t.take sb ++ (Term.num i32Max :: aTm :: Term.max ::
          t.drop (sb + 1 + 1 + 1)) := by
        conv_lhs => rw [← List.take_append_drop sb t]
        rw [hd1, hd2, hd3]
      refine ⟨t.take sb, [Term.num i32Max, aTm, Term.max], [Term.num i32Max],
        t.drop (sb + 1 + 1 + 1), ht, ?_, ?_, ?_, ?_⟩
      · rw [← ht']
        unfold remove2
        rw [if_pos (by omega : sb + 1 ≤ sb + 1 + 1)]
        have hstep1 : t.eraseIdx (sb + 1 + 1) = t.take sb ++ Term.num i32Max ::
            aTm :: t.drop (sb + 1 + 1 + 1) := by
          conv_lhs => rw [ht]
          have he1 := erase_at_head2 (t.take sb) (Term.num i32Max) aTm Term.max
            (t.drop (sb + 1 + 1 + 1))
          rw [hlen_sb] at he1
          exact he1
        rw [hstep1]
        have he2 := erase_at_head1 (t.take sb) (Term.num i32Max) aTm
          (t.drop (sb + 1 + 1 + 1))
        rw [hlen_sb] at he2
        exact he2
      · unfold blockOne
        rw [wfAux_num]
        rcases Term.isLeaf_elim haleaf with ⟨n, rfl⟩ | ⟨c, rfl⟩
        · rw [wfAux_num]; rfl
        · rw [wfAux_var]; rfl
      · rfl
      · intro env st st2 hbx
        exact absurd hbx (bexecT_no_inf env _ st st2 (by simp))
    · -- max with `Num(INF)` as the popped-first operand, leaf second operand
      obtain ⟨haT, hmax⟩ := h4
      obtain ⟨haI, hga, hk⟩ := haIex haT
      subst haI
      cases hbI : bI with
      | none => rw [hbI] at happ; exact Option.noConfusion happ
      | some ib =>
      rw [hbI] at happ
      simp only at happ
      obtain ⟨hib, hsa⟩ := hbidx ib hbI
      rw [hib] at happ
      subst hmax
      have ht' := Option.some.inj happ
      subst hk
      have hsb_lt : sb < t.length := by omega
      cases hgbt : t.get? sb with
      | none =>
          have hc := List.get?_eq_none.mp hgbt
          omega
      | some bTm =>
      subst hsa
      have hbleaf : bTm.isLeaf = true := by
        have hseq : seg t sb (sb + 1) = [bTm] := seg_single_of_get? hgbt
        rw [hseq] at hsbblk
        exact blockOne_single_isLeaf hsbblk
      have hd1 := drop_eq_cons_of_get? hgbt
      have hd2 := drop_eq_cons_of_get? hga
      have hd3 := drop_eq_cons_of_get? hop
      have ht : t = t.take sb ++ (bTm :: Term.num i32Max :: Term.max ::
          t.drop (sb + 1 + 1 + 1)) := by
        conv_lhs => rw [← List.take_append_drop sb t]
        rw [hd1, hd2, hd3]
      refine ⟨t.take sb, [bTm, Term.num i32Max, Term.max], [Term.num i32Max],
        t.drop (sb + 1 + 1 + 1), ht, ?_, ?_, ?_, ?_⟩
      · rw [← ht']
        unfold remove2
        rw [if_pos (by omega : sb ≤ sb + 1 + 1)]
        have hstep1 : t.eraseIdx (sb + 1 + 1) = t.take sb ++ bTm ::
            Term.num i32Max :: t.drop (sb + 1 + 1 + 1) := by
          conv_lhs => rw [ht]
          have he1 := erase_at_head2 (t.take sb) bTm (Term.num i32Max) Term.max
            (t.drop (sb + 1 + 1 + 1))
          rw [hlen_sb] at he1
          exact he1
        rw [hstep1]
        have he2 := erase_at_head (t.take sb) bTm
          (Term.num i32Max :: t.drop (sb + 1 + 1 + 1))
        rw [hlen_sb] at he2
        exact he2
      · unfold blockOne
        rcases Term.isLeaf_elim hbleaf with ⟨n, rfl⟩ | ⟨c, rfl⟩
        · rw [wfAux_num, wfAux_num]; rfl
        · rw [wfAux_var, wfAux_num]; rfl
      · rfl
      · intro env st st2 hbx
        exact absurd hbx (bexecT_no_inf env _ st st2 (by simp))

theorem firstRewrite_exists {t t' : List Term} {trips : List Trip}
    (h : firstRewrite t trips = some t') :
    ∃ trip ∈ trips, applyTrip t trip = some t' := by
  induction trips with
  | nil => exact Option.noConfusion h
  | cons trip rest ih =>
    unfold firstRewrite at h
    split at h
    · rename_i t2 happ
      cases h
      exact ⟨trip, List.mem_cons_self trip rest, happ⟩
    · obtain ⟨tr, hmem, happ⟩ := ih h
      exact ⟨tr, List.mem_cons_of_mem _ hmem, happ⟩

theorem reduceStep_surgery {t t' : List Term} (h : reduceStep t = some t') :
    ∃ pre mid mid' suf,
      t = pre ++ (mid ++ suf) ∧ t' = pre ++ (mid' ++ suf) ∧
        blockOne mid ∧ blockOne mid' ∧
        (∀ (env : Char → Option Int) (st st2 : List Int),
          bexecT env mid st = some st2 → bexecT env mid' st = some st2) := by
  obtain ⟨trip, hmem, happ⟩ := firstRewrite_exists h
  obtain ⟨aI, k, bI⟩ := trip
  exact applyTrip_surgery (gt_inv t t 0 [] (by simp) trivial _ hmem) happ

theorem wfAux_block_replace {mid mid' : List Term} (hm : blockOne mid)
    (hm' : blockOne mid') (pre suf : List Term) (d : Nat) :
    wfAux (pre ++ (mid' ++ suf)) d = wfAux (pre ++ (mid ++ suf)) d := by
  rw [wfAux_append, wfAux_append]
  congr 1
  funext e
  rw [wfAux_append, wfAux_append, blockOne_wfAux hm, blockOne_wfAux hm']

theorem reduceStep_preserves_WF {t t' : List Term} (hs : reduceStep t = some t')
    (hwf : WF t) : WF t' := by
  obtain ⟨pre, mid, mid', suf, ht, ht', hm, hm', _⟩ := reduceStep_surgery hs
  unfold WF at hwf ⊢
  rw [ht', wfAux_block_replace hm hm' pre suf 0, ← ht]
  exact hwf

theorem bexecT_reduceStep (env : Char → Option Int) {t t' : List Term}
    (hs : reduceStep t = some t') :
    ∀ {st st' : List Int}, bexecT env t st = some st' → bexecT env t' st = some st' := by
  obtain ⟨pre, mid, mid', suf, ht, ht', hm, hm', htr⟩ := reduceStep_surgery hs
  intro st st' hex
  rw [ht, bexecT_append] at hex
  rw [ht', bexecT_append]
  cases h1 : bexecT env pre st with
  | none => rw [h1] at hex; exact absurd hex (by simp)
  | some st1 =>
      rw [h1] at hex
      simp only [Option.some_bind] at hex ⊢
      rw [bexecT_append] at hex
      rw [bexecT_append]
      cases h2 : bexecT env mid st1 with
      | none => rw [h2] at hex; exact absurd hex (by simp)
      | some st2 =>
          rw [h2] at hex
          rw [htr env st1 st2 h2]
          exact hex

theorem WF_rtGo : ∀ (f : Nat) (t : List Term), WF t → WF (rtGo f t) := by
  intro f
  induction f with
  | zero => intro t h; exact h
  | succ f' ih =>
    intro t h
    unfold rtGo
    cases hs : reduceStep t with
    | none => exact h
    | some t' =>
        simp only
        exact ih t' (reduceStep_preserves_WF hs h)

theorem WF_simplify {t : List Term} (h : WF t) : WF (simplify t) :=
  WF_rtGo _ t h

theorem bexecT_rtGo (env : Char → Option Int) :
    ∀ (f : Nat) (t : List Term) {st st' : List Int},
      bexecT env t st = some st' → bexecT env (rtGo f t) st = some st' := by
  intro f
  induction f with
  | zero => intro t st st' h; exact h
  | succ f' ih =>
    intro t st st' h
    unfold rtGo
    cases hs : reduceStep t with
    | none => exact h
    | some t2 =>
        simp only
        exact ih t2 (bexecT_reduceStep env hs h)

theorem bexecT_simplify (env : Char → Option Int) {t : List Term} {st st' : List Int}
    (h : bexecT env t st = some st') : bexecT env (simplify t) st = some st' :=
  bexecT_rtGo env _ t h

/-! ## Well-formedness of everything the public API can build (C2) -/

theorem WF_append_op {la lb : List Term} {opT : Term} {f : Int → Int → Option Int}
    (hf : opT.asOp = some f) (ha : WF la) (hb : WF lb) : WF (lb ++ la ++ [opT]) := by
  unfold WF at ha hb ⊢
  rw [List.append_assoc, wfAux_append, hb]
  show wfAux (la ++ [opT]) 1 = some 1
  rw [wfAux_append, wfAux_shift la 0 1 1 ha]
  show wfAux (opT :: []) 2 = some 1
  rw [wfAux_op hf]
  rfl

theorem wfAux_splice {x : Char} {v : List Term} (hv : blockOne v) :
    ∀ (t : List Term) (d e : Nat), wfAux t d = some e →
      wfAux (splice t x v) d = some e := by
  intro t
  induction t with
  | nil => intro d e h; exact h
  | cons tm r ih =>
    intro d e h
    rcases Term.asOp_cases tm with ⟨n, rfl⟩ | ⟨c, rfl⟩ | ⟨f, hf⟩
    · rw [wfAux_num] at h
      show wfAux (Term.num n :: splice r x v) d = some e
      rw [wfAux_num]
      exact ih (d + 1) e h
    · rw [wfAux_var] at h
      show wfAux ((if c = x then v else [Term.var c]) ++ splice r x v) d = some e
      by_cases hc : c = x
      · rw [if_pos hc, wfAux_append, blockOne_wfAux hv]
        exact ih (d + 1) e h
      · rw [if_neg hc]
        show wfAux (Term.var c :: splice r x v) d = some e
        rw [wfAux_var]
        exact ih (d + 1) e h
    · match d with
      | 0 => rw [wfAux_op_zero hf] at h; exact Option.noConfusion h
      | 1 => rw [wfAux_op_one hf] at h; exact Option.noConfusion h
      | d' + 2 =>
          rw [wfAux_op hf] at h
          have hsp : splice (tm :: r) x v = tm :: splice r x v := by
            unfold splice
            rw [List.flatMap_cons]
            congr 1
            cases tm <;> first | rfl | (exact absurd hf (by simp [Term.asOp]))
          rw [hsp, wfAux_op hf]
          exact ih (d' + 1) e h

theorem WF_substitute {a v : List Term} (x : Char) (ha : WF a) (hv : WF v) :
    WF (substitute a x v) := by
  unfold substitute
  exact WF_simplify (wfAux_splice hv a 0 1 ha)

theorem WF_num (n : Int) : WF [Term.num n] := rfl

theorem WF_mulE {a b : List Term} (ha : WF a) (hb : WF b) : WF (mulE a b) := by
  unfold mulE
  split_ifs with h1 h2 h3
  · exact ha
  · exact hb
  · exact WF_num 0
  · exact WF_simplify (WF_append_op rfl ha hb)

theorem WF_addE {a b : List Term} (ha : WF a) (hb : WF b) : WF (addE a b) := by
  unfold addE
  split_ifs with h1 h2 h3
  · exact ha
  · exact hb
  · exact WF_mulE ha (WF_num 2)
  · exact WF_simplify (WF_append_op rfl ha hb)

theorem WF_subE {a b : List Term} (ha : WF a) (hb : WF b) : WF (subE a b) := by
  unfold subE
  split_ifs with h1 h2
  · exact ha
  · exact WF_num 0
  · exact WF_simplify (WF_append_op rfl ha hb)

theorem WF_divE {a b : List Term} (ha : WF a) (hb : WF b) : WF (divE a b) := by
  unfold divE
  split_ifs with h1 h2 h3
  · exact ha
  · exact WF_num 1
  · exact WF_num 0
  · exact WF_simplify (WF_append_op rfl ha hb)

theorem WF_remE {a b : List Term} (ha : WF a) (hb : WF b) : WF (remE a b) := by
  unfold remE
  split_ifs with h1
  · exact WF_num 0
  · exact WF_simplify (WF_append_op rfl ha hb)

theorem WF_andE {a b : List Term} (ha : WF a) (hb : WF b) : WF (andE a b) := by
  unfold andE
  split_ifs with h1 h2 h3
  · exact WF_num 0
  · exact ha
  · exact hb
  · exact WF_simplify (WF_append_op rfl ha hb)

theorem WF_orE {a b : List Term} (ha : WF a) (hb : WF b) : WF (orE a b) := by
  unfold orE
  split_ifs with h1
  · exact WF_num 1
  · exact WF_simplify (WF_append_op rfl ha hb)

theorem WF_minE {a b : List Term} (ha : WF a) (hb : WF b) : WF (minE a b) := by
  unfold minE
  split_ifs with h1
  · exact ha
  · exact WF_simplify (WF_append_op rfl ha hb)

theorem WF_maxE {a b : List Term} (ha : WF a) (hb : WF b) : WF (maxE a b) := by
  unfold maxE
  split_ifs with h1 h2
  · exact ha
  · exact hb
  · exact WF_simplify (WF_append_op rfl ha hb)

theorem WF_gteE {a b : List Term} (ha : WF a) (hb : WF b) : WF (gteE a b) := by
  unfold gteE
  split_ifs with h1
  · exact WF_num 1
  · exact WF_simplify (WF_append_op rfl ha hb)

theorem WF_ltE {a b : List Term} (ha : WF a) (hb : WF b) : WF (ltE a b) := by
  unfold ltE
  split_ifs with h1
  · exact WF_num 0
  · cases hh : b.head? with
    | none => exact WF_simplify (WF_append_op rfl ha hb)
    | some tm =>
        cases tm with
        | num n =>
            simp only
            split_ifs with h2
            · exact WF_num 1
            · exact WF_simplify (WF_append_op rfl ha hb)
        | var c => exact WF_simplify (WF_append_op rfl ha hb)
        | add => exact WF_simplify (WF_append_op rfl ha hb)
        | sub => exact WF_simplify (WF_append_op rfl ha hb)
        | mul => exact WF_simplify (WF_append_op rfl ha hb)
        | div => exact WF_simplify (WF_append_op rfl ha hb)
        | mod => exact WF_simplify (WF_append_op rfl ha hb)
        | min => exact WF_simplify (WF_append_op rfl ha hb)
        | max => exact WF_simplify (WF_append_op rfl ha hb)
        | and => exact WF_simplify (WF_append_op rfl ha hb)
        | or => exact WF_simplify (WF_append_op rfl ha hb)
        | gte => exact WF_simplify (WF_append_op rfl ha hb)
        | lt => exact WF_simplify (WF_append_op rfl ha hb)

/-- C2: every expression produced by the public combinators (including after
`simplify` and `substitute`) is well-formed postfix: the stack walk never
underflows and leaves exactly one value. -/
theorem C2_built_well_formed (t : List Term) (hb : Built t) : WF t := by
  induction hb with
  | scalar n => exact WF_num _
  | dflt => exact WF_num 0
  | varC c => rfl
  | addB _ _ iha ihb => exact WF_addE iha ihb
  | subB _ _ iha ihb => exact WF_subE iha ihb
  | mulB _ _ iha ihb => exact WF_mulE iha ihb
  | divB _ _ iha ihb => exact WF_divE iha ihb
  | remB _ _ iha ihb => exact WF_remE iha ihb
  | andB _ _ iha ihb => exact WF_andE iha ihb
  | orB _ _ iha ihb => exact WF_orE iha ihb
  | minB _ _ iha ihb => exact WF_minE iha ihb
  | maxB _ _ iha ihb => exact WF_maxE iha ihb
  | gteB _ _ iha ihb => exact WF_gteE iha ihb
  | ltB _ _ iha ihb => exact WF_ltE iha ihb
  | substituteB x _ _ iha ihv => exact WF_substitute x iha ihv
  | simplifyB _ iha => exact WF_simplify iha

/-- Witness for C2 at the concrete expression `(x + 3) * x`. -/
theorem C2_witness : WF (mulE (addE (varE 'x') (scalarE 3)) (varE 'x')) :=
  C2_built_well_formed _
    (Built.mulB (Built.addB (Built.varC 'x') (Built.scalar 3)) (Built.varC 'x'))

/-! ## Walks of embedded sublists (towards the `(_ % n) < n` identity) -/

theorem wstk_op {tm : Term} {f : Int → Int → Option Int} (hf : tm.asOp = some f)
    (r : List Term) (i : Nat) (a b : Option Nat × Term)
    (st : List (Option Nat × Term)) :
    wstk (tm :: r) i (a :: b :: st) =
      (match a.2, b.2 with
       | .num x, .num y =>
           match f x y with
           | some c => wstk r (i + 1) ((none, .num (wrap32 c)) :: st)
           | none => none
       | .var v, _ => wstk r (i + 1) ((none, .var v) :: st)
       | _, .var v => wstk r (i + 1) ((none, .var v) :: st)
       | _, _ => wstk r (i + 1) st) := by
  cases tm
  case num n => exact absurd hf (by simp [Term.asOp])
  case var c => exact absurd hf (by simp [Term.asOp])
  all_goals
    simp only [Term.asOp, Option.some.injEq] at hf
  all_goals subst hf
  all_goals rfl

theorem wstk_op_nil {tm : Term} {f : Int → Int → Option Int} (hf : tm.asOp = some f)
    (r : List Term) (i : Nat) : wstk (tm :: r) i [] = none := by
  cases tm
  case num n => exact absurd hf (by simp [Term.asOp])
  case var c => exact absurd hf (by simp [Term.asOp])
  all_goals rfl

theorem wstk_op_one {tm : Term} {f : Int → Int → Option Int} (hf : tm.asOp = some f)
    (r : List Term) (i : Nat) (a : Option Nat × Term) :
    wstk (tm :: r) i [a] = none := by
  cases tm
  case num n => exact absurd hf (by simp [Term.asOp])
  case var c => exact absurd hf (by simp [Term.asOp])
  all_goals rfl

theorem firstRewrite_none_iff {t : List Term} {trips : List Trip} :
    firstRewrite t trips = none ↔ ∀ trip ∈ trips, applyTrip t trip = none := by
  induction trips with
  | nil => simp [firstRewrite]
  | cons trip rest ih =>
    unfold firstRewrite
    constructor
    · intro h
      split at h
      · exact absurd h (by simp)
      · intro tr htr
        rcases List.mem_cons.mp htr with rfl | hmem
        · assumption
        · exact ih.mp h tr hmem
    · intro h
      rw [h trip (List.mem_cons_self trip rest)]
      exact ih.mpr fun tr htr => h tr (List.mem_cons_of_mem _ htr)

theorem get?_of_drop_cons {t : List Term} {i : Nat} {x : Term} {r : List Term}
    (h : t.drop i = x :: r) : t.get? i = some x := by
  have h2 : (t.drop i).get? 0 = some x := by rw [h]; rfl
  rwa [List.get?_drop, Nat.add_zero] at h2

theorem wstk_length :
    ∀ (cur : List Term) (i : Nat) (st st2 : List (Option Nat × Term)),
      AllLeaf st → wstk cur i st = some st2 →
      wfAux cur st.length = some st2.length ∧ AllLeaf st2 := by
  intro cur
  induction cur with
  | nil =>
    intro i st st2 hl h
    cases h
    exact ⟨rfl, hl⟩
  | cons tm r ih =>
    intro i st st2 hl h
    rcases Term.asOp_cases tm with ⟨n, rfl⟩ | ⟨c, rfl⟩ | ⟨f, hf⟩
    · rw [wfAux_num]
      exact ih (i + 1) _ st2
        (fun en hen => by
          rcases List.mem_cons.mp hen with rfl | hmem
          · rfl
          · exact hl en hmem) h
    · rw [wfAux_var]
      exact ih (i + 1) _ st2
        (fun en hen => by
          rcases List.mem_cons.mp hen with rfl | hmem
          · rfl
          · exact hl en hmem) h
    · match st with
      | [] => rw [wstk_op_nil hf] at h; exact Option.noConfusion h
      | [a] => rw [wstk_op_one hf] at h; exact Option.noConfusion h
      | a :: b :: st' =>
          rw [wstk_op hf] at h
          have hstlen : (a :: b :: st').length = st'.length + 2 := rfl
          rw [hstlen, wfAux_op hf]
          have hl' : AllLeaf st' := fun en hen =>
            hl en (List.mem_cons_of_mem _ (List.mem_cons_of_mem _ hen))
          have haL : a.2.isLeaf = true := hl a (List.mem_cons_self _ _)
          have hbL : b.2.isLeaf = true :=
            hl b (List.mem_cons_of_mem _ (List.mem_cons_self _ _))
          rcases Term.isLeaf_elim haL with ⟨x, hax⟩ | ⟨v, hav⟩
          · rcases Term.isLeaf_elim hbL with ⟨y, hby⟩ | ⟨w, hbw⟩
            · rw [hax, hby] at h
              simp only at h
              cases hfo : f x y with
              | some c =>
                  rw [hfo] at h
                  exact ih (i + 1) _ st2
                    (fun en hen => by
                      rcases List.mem_cons.mp hen with rfl | hmem
                      · rfl
                      · exact hl' en hmem) h
              | none => rw [hfo] at h; exact Option.noConfusion h
            · rw [hax, hbw] at h
              simp only at h
              exact ih (i + 1) _ st2
                (fun en hen => by
                  rcases List.mem_cons.mp hen with rfl | hmem
                  · rfl
                  · exact hl' en hmem) h
          · rw [hav] at h
            simp only at h
            exact ih (i + 1) _ st2
              (fun en hen => by
                rcases List.mem_cons.mp hen with rfl | hmem
                · rfl
                · exact hl' en hmem) h

/-- C8: assuming the run does not panic (every operator application on the
values encountered succeeds), `exec` returns the absent value exactly when
some variable listed by `to_symbols` is unbound in the environment, and
returns `Some` of a value when every variable is bound. -/
theorem C8_exec_none_iff_unbound (t : List Term) (env : Char → Option Int)
    (hwf : WF t) (hnc : execT env t [] ≠ ExecRes.crash) :
    (exec t env = ExecOut.ret none ↔ ∃ c ∈ toSymbols t, env c = none) ∧
      ((∀ c ∈ toSymbols t, (env c).isSome) → ∃ v, exec t env = ExecOut.ret (some v)) := by
  constructor
  · constructor
    · intro hret
      by_contra hex
      push_neg at hex
      have hb : ∀ c ∈ toSymbols t, (env c).isSome := by
        intro c hc
        cases hev : env c with
        | some v => rfl
        | none => exact absurd hev (hex c hc)
      cases hr : execT env t [] with
      | crash => exact hnc hr
      | unbound => exact execT_ne_unbound env t [] hb hr
      | ok st' =>
          have hlen : wfAux t 0 = some st'.length := by
            simpa using execT_ok_length env t [] st' hr
          have h1 : st'.length = 1 := by
            rw [hwf] at hlen
            exact (Option.some.injEq _ _ ▸ hlen.symm)
          unfold exec execStack at hret
          rw [hr] at hret
          cases st' with
          | nil => simp at h1
          | cons v rest => simp at hret
    · intro hex
      rcases execT_unbound_or_crash env t [] hex with hr | hr
      · unfold exec execStack
        rw [hr]
      · exact absurd hr hnc
  · intro hb
    cases hr : execT env t [] with
    | crash => exact absurd hr hnc
    | unbound => exact absurd hr (execT_ne_unbound env t [] hb)
    | ok st' =>
        have hlen : wfAux t 0 = some st'.length := by
          simpa using execT_ok_length env t [] st' hr
        rw [hwf] at hlen
        have h1 : st'.length = 1 := (Option.some.injEq _ _ ▸ hlen.symm)
        match st', h1 with
        | [v], _ =>
            refine ⟨i64ToUsize v, ?_⟩
            unfold exec execStack
            rw [hr]
            rfl

/-- Witness for C8 at `t = [Var 'x']` and the empty environment. -/
theorem C8_witness :
    (exec [Term.var 'x'] (fun _ => none) = ExecOut.ret none ↔
        ∃ c ∈ toSymbols [Term.var 'x'], (fun _ => (none : Option Int)) c = none) ∧
      ((∀ c ∈ toSymbols [Term.var 'x'], ((fun _ => (none : Option Int)) c).isSome) →
        ∃ v, exec [Term.var 'x'] (fun _ => none) = ExecOut.ret (some v)) :=
  C8_exec_none_iff_unbound [Term.var 'x'] (fun _ => none) (by decide) (by decide)

/-- C9: the result of stack-reusing evaluation does not depend on the
scratch stack's prior contents: for a well-formed expression whose run from
the empty stack succeeds with value `v`, `exec_stack` returns the same
result from any initial scratch stack, and that result is `exec`'s; and the
same for `exec_single_var_stack` versus `exec_single_var`. -/
theorem C9_scratch_stack_independent (t : List Term) (_hwf : WF t) :
    (∀ (env : Char → Option Int) (v : Int) (st0 : List Int),
        execT env t [] = ExecRes.ok [v] →
        execStack t env st0 = exec t env ∧
          exec t env = ExecOut.ret (some (i64ToUsize v))) ∧
      (∀ (value w : Int) (st0 : List Int),
        execT (fun _ => some value) t [] = ExecRes.ok [w] →
        execSVStack t value st0 = execSV t value ∧
          execSV t value = some (i64ToUsize w)) := by
  constructor
  · intro env v st0 h
    have hext : execT env t st0 = ExecRes.ok (v :: st0) := by
      simpa using execT_extend env t [] [v] st0 h
    constructor
    · unfold execStack exec execStack
      rw [hext, h]
      rfl
    · unfold exec execStack
      rw [h]
      rfl
  · intro value w st0 h
    have hext : execT (fun _ => some value) t st0 = ExecRes.ok (w :: st0) := by
      simpa using execT_extend (fun _ => some value) t [] [w] st0 h
    constructor
    · unfold execSVStack execSV execSVStack
      rw [hext, h]
      rfl
    · unfold execSV execSVStack
      rw [h]
      rfl

/-- Witness for C9 at `t = [Var 'x']`. -/
theorem C9_witness :
    execStack [Term.var 'x'] (fun _ => some 7) [3, 4] =
        exec [Term.var 'x'] (fun _ => some 7) ∧
      exec [Term.var 'x'] (fun _ => some 7) = ExecOut.ret (some (i64ToUsize 7)) :=
  (C9_scratch_stack_independent [Term.var 'x'] (by decide)).1
    (fun _ => some 7) 7 [3, 4] (by decide)

/-- C5 counterexample: for `x - 5` (built by the `Sub` combinator) under
`x = 7`, the postfix sequence is indeed `rhs ++ lhs ++ [op]`, but the value
stack just before the operator is `[7, 5]` with the LEFT operand's value `7`
on top, so the first of the two popped values is the left operand's value,
not the right's; the result is `7 - 5 = 2` (operator applied to
`(left, right)`), not `5 - 7`. -/
theorem C5_counterexample :
    subE [Term.var 'x'] [Term.num 5] = [Term.num 5, Term.var 'x', Term.sub] ∧
      execT (fun c => if c = 'x' then some 7 else none) [Term.num 5, Term.var 'x'] [] =
        ExecRes.ok [7, 5] ∧
      exec (subE [Term.var 'x'] [Term.num 5]) (fun c => if c = 'x' then some 7 else none) =
        ExecOut.ret (some 2) ∧
      (7 : Int) - 5 = 2 ∧ (5 : Int) - 7 ≠ 2 := by
  refine ⟨by decide, by decide, by decide, by decide, by decide⟩

/-- C5 amended: the postfix stream of a binary combination is the right-hand
side's terms, then the left-hand side's terms, then the operator; when the
evaluator reaches the operator, the first popped value is the LEFT operand's
value and the second is the RIGHT's, and the opcode's function is applied to
the popped values in that (left, right) order. -/
theorem C5_operand_order (la lb : List Term) (opT : Term) (f : Int → Int → Option Int)
    (env : Char → Option Int) (va vb : Int) (hf : opT.asOp = some f)
    (ha : execT env la [] = ExecRes.ok [va]) (hb : execT env lb [] = ExecRes.ok [vb]) :
    execT env (lb ++ la ++ [opT]) [] =
      match f va vb with
      | some c => ExecRes.ok [c]
      | none => ExecRes.crash := by
  have h1 : execT env la [vb] = ExecRes.ok [va, vb] := by
    simpa using execT_extend env la [] [va] [vb] ha
  rw [List.append_assoc, execT_append env lb (la ++ [opT]) [], hb]
  change execT env (la ++ [opT]) [vb] = _
  rw [execT_append env la [opT] [vb], h1]
  change execT env [opT] [va, vb] = _
  rw [execT_op env hf [] va vb []]
  cases f va vb <;> rfl

/-- Witness for C5 amended, at `lhs = Var 'x'`, `rhs = Num 5`, `op = Sub`,
`x = 7`: the machine computes `7 - 5`. -/
theorem C5_operand_order_witness :
    execT (fun c => if c = 'x' then some 7 else none)
        ([Term.num 5] ++ [Term.var 'x'] ++ [Term.sub]) [] =
      match chk64 (7 - 5) with
      | some c => ExecRes.ok [c]
      | none => ExecRes.crash :=
  C5_operand_order [Term.var 'x'] [Term.num 5] Term.sub _
    (fun c => if c = 'x' then some 7 else none) 7 5 rfl (by decide) (by decide)

/-- C4 counterexample: the public `Mul` combinator on `Num(2147483647)` and
`Num(2)` constant-folds to `Num(-2)` — the checked 64-bit multiply succeeds
with `4294967294` but the `as i32` write-back wraps, so the written literal
differs from the exact mathematical result of the triple. -/
theorem C4_counterexample :
    reduceTriples [Term.num 2, Term.num 2147483647, Term.mul] = [Term.num (-2)] ∧
      mulE [Term.num 2147483647] [Term.num 2] = [Term.num (-2)] ∧
      (2147483647 : Int) * 2 = 4294967294 ∧ ((-2 : Int) ≠ 4294967294) := by
  refine ⟨by decide, by decide, by decide, by decide⟩

/-- C4 amended: when the simplifier folds a triple with operands `Num(a)`,
`Num(b)` and operator `op`, the literal written back is the `as i32` wrap of
the checked 64-bit result, which equals the exact mathematical result
whenever that result fits in `i32`; if the checked operation fails, the
triple is skipped unchanged. -/
theorem C4_constant_fold (t : List Term) (ia ib k : Nat) (a b : Int) (opT : Term)
    (f : Int → Int → Option Int)
    (ha : t.get? ia = some (Term.num a)) (hb : t.get? ib = some (Term.num b))
    (hop : t.get? k = some opT) (hf : opT.asOp = some f) :
    (∀ c, f a b = some c →
        applyTrip t (some ia, k, some ib) =
          some (remove2 (t.set ia (Term.num (wrap32 c))) k ib) ∧
        (-(2 ^ 31) ≤ c → c < 2 ^ 31 → wrap32 c = c)) ∧
      (f a b = none → applyTrip t (some ia, k, some ib) = none) := by
  simp only [List.get?_eq_getElem?] at ha hb hop
  constructor
  · intro c hc
    constructor
    · unfold applyTrip
      simp [ha, hb, hop, hf, hc]
    · intro h1 h2
      exact wrap32_eq_self h1 h2
  · intro hc
    unfold applyTrip
    simp [ha, hb, hop, hf, hc]

/-- Witness for C4 amended at `t = [Num 3, Num 4, Add]`: the fold writes
`Num 7`, the exact sum. -/
theorem C4_constant_fold_witness :
    applyTrip [Term.num 3, Term.num 4, Term.add] (some 1, 2, some 0) =
        some (remove2 ([Term.num 3, Term.num 4, Term.add].set 1
          (Term.num (wrap32 7))) 2 0) ∧
      wrap32 (7 : Int) = 7 := by
  have h := (C4_constant_fold [Term.num 3, Term.num 4, Term.add] 1 0 2 4 3 Term.add
    (fun a b => chk64 (a + b)) rfl rfl rfl rfl).1 7 (by decide)
  exact ⟨h.1, h.2 (by decide) (by decide)⟩

/-- C10: the default expression is the single term `Num(0)`: it is
well-formed, has no variables, and `to_usize()` returns `Some(0)`. -/
theorem C10_default :
    defaultE = [Term.num 0] ∧ WF defaultE ∧ toSymbols defaultE = [] ∧
      toUsize defaultE = ExecOut.ret (some 0) := by
  refine ⟨rfl, by decide, rfl, ?_⟩
  show ExecOut.ret (([ (0 : Int) ].head?).map i64ToUsize) = ExecOut.ret (some 0)
  simp [i64ToUsize]

theorem shiftE_snd (d : Nat) (en : Option Nat × Term) : (shiftE d en).2 = en.2 := rfl

theorem shiftE_fst (d : Nat) (en : Option Nat × Term) :
    (shiftE d en).1 = en.1.map (· + d) := rfl

theorem AllLeaf_cons {en : Option Nat × Term} {st : List (Option Nat × Term)}
    (h1 : en.2.isLeaf = true) (h2 : AllLeaf st) : AllLeaf (en :: st) := by
  intro x hx
  rcases List.mem_cons.mp hx with rfl | hmem
  · exact h1
  · exact h2 x hmem

theorem AllLeaf_cons2 {o : Option Nat} (tm : Term) (h1 : tm.isLeaf = true)
    {st : List (Option Nat × Term)} (h2 : AllLeaf st) : AllLeaf ((o, tm) :: st) :=
  AllLeaf_cons h1 h2

theorem AllLeaf_tail2 {a b : Option Nat × Term} {st : List (Option Nat × Term)}
    (h : AllLeaf (a :: b :: st)) : AllLeaf st := fun en hen =>
  h en (List.mem_cons_of_mem _ (List.mem_cons_of_mem _ hen))

/-- The `get_triples` walk of a concatenation: the triples of the prefix,
then (if the prefix's walk neither breaks nor underflows) the triples of the
suffix continued from the prefix's final stack. -/
theorem gtAux_append :
    ∀ (e rest : List Term) (i : Nat) (st : List (Option Nat × Term)), AllLeaf st →
      gtAux (e ++ rest) i st =
        gtAux e i st ++
          (match wstk e i st with
           | some st2 => gtAux rest (i + e.length) st2
           | none => []) := by
  intro e
  induction e with
  | nil =>
    intro rest i st _
    simp [gtAux, wstk]
  | cons tm r ih =>
    intro rest i st hl
    rcases Term.asOp_cases tm with ⟨n, rfl⟩ | ⟨c, rfl⟩ | ⟨f, hf⟩
    · have hst : AllLeaf ((some i, Term.num n) :: st) := AllLeaf_cons rfl hl
      have h1 := ih rest (i + 1) _ hst
      show gtAux (r ++ rest) (i + 1) ((some i, Term.num n) :: st) =
        gtAux r (i + 1) ((some i, Term.num n) :: st) ++
          (match wstk r (i + 1) ((some i, Term.num n) :: st) with
           | some st2 => gtAux rest (i + (r.length + 1)) st2
           | none => [])
      rw [h1]
      have h2 : i + 1 + r.length = i + (r.length + 1) := by omega
      rw [h2]
    · have hst : AllLeaf ((some i, Term.var c) :: st) := AllLeaf_cons rfl hl
      have h1 := ih rest (i + 1) _ hst
      show gtAux (r ++ rest) (i + 1) ((some i, Term.var c) :: st) =
        gtAux r (i + 1) ((some i, Term.var c) :: st) ++
          (match wstk r (i + 1) ((some i, Term.var c) :: st) with
           | some st2 => gtAux rest (i + (r.length + 1)) st2
           | none => [])
      rw [h1]
      have h2 : i + 1 + r.length = i + (r.length + 1) := by omega
      rw [h2]
    · match st, hl with
      | [], _ =>
          rw [List.cons_append, gtAux_op_nil hf, gtAux_op_nil hf, wstk_op_nil hf]
          rfl
      | [a], _ =>
          rw [List.cons_append, gtAux_op_one hf, gtAux_op_one hf, wstk_op_one hf]
          rfl
      | a :: b :: st', hl =>
          rw [List.cons_append, gtAux_op hf, gtAux_op hf, wstk_op hf,
            List.cons_append]
          have hl' : AllLeaf st' := AllLeaf_tail2 hl
          have haL : a.2.isLeaf = true := hl a (List.mem_cons_self _ _)
          have hbL : b.2.isLeaf = true :=
            hl b (List.mem_cons_of_mem _ (List.mem_cons_self _ _))
          have h2 : i + 1 + r.length = i + (r.length + 1) := by omega
          congr 1
          rcases Term.isLeaf_elim haL with ⟨x, hax⟩ | ⟨v, hav⟩
          · rcases Term.isLeaf_elim hbL with ⟨y, hby⟩ | ⟨w, hbw⟩
            · rw [hax, hby]
              simp only
              cases hfo : f x y with
              | some c =>
                  have hst : AllLeaf ((none, Term.num (wrap32 c)) :: st') :=
                    AllLeaf_cons rfl hl'
                  have h1 := ih rest (i + 1) _ hst
                  simp only
                  rw [h1, h2]
                  rfl
              | none => rfl
            · rw [hax, hbw]
              simp only
              have hst : AllLeaf ((none, Term.var w) :: st') := AllLeaf_cons rfl hl'
              have h1 := ih rest (i + 1) _ hst
              rw [h1, h2]
              rfl
          · rw [hav]
            simp only
            have hst : AllLeaf ((none, Term.var v) :: st') := AllLeaf_cons rfl hl'
            have h1 := ih rest (i + 1) _ hst
            rw [h1, h2]
            rfl

/-- Walking a subexpression embedded at offset `d` above a base stack `B`
yields the shifted triples and the shifted stack of the subexpression's own
walk, provided the subexpression never underflows its own part of the stack
(guaranteed by `wfAux`). -/
theorem shiftT_mk (d : Nat) (aI bI : Option Nat) (k : Nat) :
    shiftT d (aI, k, bI) = (aI.map (· + d), k + d, bI.map (· + d)) := rfl

theorem gt_shift :
    ∀ (e : List Term) (i d : Nat) (st B : List (Option Nat × Term)),
      AllLeaf st → (wfAux e st.length).isSome →
      gtAux e (i + d) (st.map (shiftE d) ++ B) = (gtAux e i st).map (shiftT d) ∧
      wstk e (i + d) (st.map (shiftE d) ++ B) =
        (wstk e i st).map (fun s2 => s2.map (shiftE d) ++ B) := by
  intro e
  induction e with
  | nil =>
    intro i d st B _ _
    exact ⟨rfl, rfl⟩
  | cons tm r ih =>
    intro i d st B hl hwf
    rcases Term.asOp_cases tm with ⟨n, rfl⟩ | ⟨c, rfl⟩ | ⟨f, hf⟩
    · have hst : AllLeaf ((some i, Term.num n) :: st) := AllLeaf_cons rfl hl
      have hwf' : (wfAux r ((some i, Term.num n) :: st).length).isSome := by
        rw [wfAux_num] at hwf; exact hwf
      have h1 := ih (i + 1) d _ B hst hwf'
      have he : i + d + 1 = i + 1 + d := by omega
      constructor
      · show gtAux r (i + d + 1)
            ((some (i + d), Term.num n) :: (st.map (shiftE d) ++ B)) =
          (gtAux r (i + 1) ((some i, Term.num n) :: st)).map (shiftT d)
        rw [he]
        exact h1.1
      · show wstk r (i + d + 1)
            ((some (i + d), Term.num n) :: (st.map (shiftE d) ++ B)) =
          (wstk r (i + 1) ((some i, Term.num n) :: st)).map
            (fun s2 => s2.map (shiftE d) ++ B)
        rw [he]
        exact h1.2
    · have hst : AllLeaf ((some i, Term.var c) :: st) := AllLeaf_cons rfl hl
      have hwf' : (wfAux r ((some i, Term.var c) :: st).length).isSome := by
        rw [wfAux_var] at hwf; exact hwf
      have h1 := ih (i + 1) d _ B hst hwf'
      have he : i + d + 1 = i + 1 + d := by omega
      constructor
      · show gtAux r (i + d + 1)
            ((some (i + d), Term.var c) :: (st.map (shiftE d) ++ B)) =
          (gtAux r (i + 1) ((some i, Term.var c) :: st)).map (shiftT d)
        rw [he]
        exact h1.1
      · show wstk r (i + d + 1)
            ((some (i + d), Term.var c) :: (st.map (shiftE d) ++ B)) =
          (wstk r (i + 1) ((some i, Term.var c) :: st)).map
            (fun s2 => s2.map (shiftE d) ++ B)
        rw [he]
        exact h1.2
    · match st, hl, hwf with
      | [], _, hwf =>
          rw [List.length_nil, wfAux_op_zero hf] at hwf
          exact absurd hwf (by simp)
      | [a], _, hwf =>
          have hone : ([a] : List (Option Nat × Term)).length = 1 := rfl
          rw [hone, wfAux_op_one hf] at hwf
          exact absurd hwf (by simp)
      | a :: b :: st', hl, hwf =>
          have hl' : AllLeaf st' := AllLeaf_tail2 hl
          have haL : a.2.isLeaf = true := hl a (List.mem_cons_self _ _)
          have hbL : b.2.isLeaf = true :=
            hl b (List.mem_cons_of_mem _ (List.mem_cons_self _ _))
          have hwf' : (wfAux r (st'.length + 1)).isSome := by
            have hstlen : (a :: b :: st').length = st'.length + 2 := rfl
            rw [hstlen, wfAux_op hf] at hwf
            exact hwf
          have he : i + d + 1 = i + 1 + d := by omega
          have hmapcons : (a :: b :: st').map (shiftE d) ++ B =
              shiftE d a :: shiftE d b :: (st'.map (shiftE d) ++ B) := rfl
          rw [hmapcons, gtAux_op hf, gtAux_op hf, wstk_op hf, wstk_op hf]
          simp only [shiftE_snd, shiftE_fst]
          rcases Term.isLeaf_elim haL with ⟨x, hax⟩ | ⟨v, hav⟩
          · rcases Term.isLeaf_elim hbL with ⟨y, hby⟩ | ⟨w, hbw⟩
            · rw [hax, hby]
              simp only
              cases hfo : f x y with
              | some c =>
                  simp only
                  have hst : AllLeaf ((none, Term.num (wrap32 c)) :: st') :=
                    AllLeaf_cons rfl hl'
                  have h1 := ih (i + 1) d _ B hst hwf'
                  have hsc : (none, Term.num (wrap32 c)) ::
                        (st'.map (shiftE d) ++ B) =
                      ((none, Term.num (wrap32 c)) :: st').map (shiftE d) ++ B := rfl
                  rw [he, hsc]
                  exact ⟨by rw [h1.1, List.map_cons, shiftT_mk],
                    by rw [h1.2]⟩
              | none => exact ⟨rfl, rfl⟩
            · rw [hax, hbw]
              simp only
              have hst : AllLeaf ((none, Term.var w) :: st') := AllLeaf_cons rfl hl'
              have h1 := ih (i + 1) d _ B hst hwf'
              have hsc : (none, Term.var w) :: (st'.map (shiftE d) ++ B) =
                  ((none, Term.var w) :: st').map (shiftE d) ++ B := rfl
              rw [he, hsc]
              exact ⟨by rw [h1.1, List.map_cons, shiftT_mk], by rw [h1.2]⟩
          · rw [hav]
            simp only
            have hst : AllLeaf ((none, Term.var v) :: st') := AllLeaf_cons rfl hl'
            have h1 := ih (i + 1) d _ B hst hwf'
            have hsc : (none, Term.var v) :: (st'.map (shiftE d) ++ B) =
                ((none, Term.var v) :: st').map (shiftE d) ++ B := rfl
            rw [he, hsc]
            exact ⟨by rw [h1.1, List.map_cons, shiftT_mk], by rw [h1.2]⟩

/-- Evaluated form of the constant-fold arm of `applyTrip` when both operand
indices point at `Num` terms and the triple's middle index holds an operator. -/
theorem applyTrip_fold_eq {t : List Term} {ia ib k : Nat} {x y : Int} {tm : Term}
    {f : Int → Int → Option Int}
    (ha : t.get? ia = some (Term.num x)) (hb : t.get? ib = some (Term.num y))
    (hk : t.get? k = some tm) (hf : tm.asOp = some f) :
    applyTrip t (some ia, k, some ib) =
      match f x y with
      | some c => some (remove2 (t.set ia (Term.num (wrap32 c))) k ib)
      | none => none := by
  simp only [List.get?_eq_getElem?] at ha hb hk
  unfold applyTrip
  cases hc : f x y <;> simp [ha, hb, hk, hf, hc]

/-- A triple whose operator is neither `Min` nor `Max` and whose `a` operand
does not resolve to a `Num` never fires. -/
theorem applyTrip_avar_none {t : List Term} {aI bI : Option Nat} {k : Nat} {opT : Term}
    (hop : t.get? k = some opT) (hmin : opT ≠ Term.min) (hmax : opT ≠ Term.max)
    (ha : aI.bind t.get? = none ∨ ∃ c, aI.bind t.get? = some (Term.var c)) :
    applyTrip t (aI, k, bI) = none := by
  simp only [List.get?_eq_getElem?] at hop ha
  rcases ha with ha | ⟨c, ha⟩
  · unfold applyTrip
    simp [hop, ha, hmin, hmax]
  · unfold applyTrip
    simp [hop, ha, hmin, hmax]

/-- A completed `get_triples` walk leaves a stack satisfying the block
invariant at the end of the expression. -/
theorem wstk_StkInv (t : List Term) :
    ∀ (cur : List Term) (i : Nat) (st st2 : List (Option Nat × Term)),
      t.drop i = cur → i ≤ t.length → StkInv t i st → AllLeaf st →
      wstk cur i st = some st2 → StkInv t t.length st2 := by
  intro cur
  induction cur with
  | nil =>
    intro i st st2 hdrop hle hinv _ h
    cases h
    have h1 : t.length ≤ i := List.drop_eq_nil_iff.mp hdrop
    have h2 : i = t.length := by omega
    subst h2
    exact hinv
  | cons tm r ih =>
    intro i st st2 hdrop hle hinv hl h
    have hlt : i < t.length := lt_length_of_drop_cons hdrop
    have hdrop' : t.drop (i + 1) = r := drop_succ_of_drop_cons hdrop
    rcases Term.asOp_cases tm with ⟨n, rfl⟩ | ⟨c, rfl⟩ | ⟨f, hf⟩
    · refine ih (i + 1) _ st2 hdrop' (by omega) ?_
        (AllLeaf_cons2 (Term.num n) rfl hl) h
      refine ⟨rfl, i, Nat.le_succ i, ?_, ?_, hinv⟩
      · rw [seg_single hdrop]; exact blockOne_leaf rfl
      · intro j hj; cases hj; exact ⟨rfl, rfl⟩
    · refine ih (i + 1) _ st2 hdrop' (by omega) ?_
        (AllLeaf_cons2 (Term.var c) rfl hl) h
      refine ⟨rfl, i, Nat.le_succ i, ?_, ?_, hinv⟩
      · rw [seg_single hdrop]; exact blockOne_leaf rfl
      · intro j hj; cases hj; exact ⟨rfl, rfl⟩
    · match st, hinv, hl with
      | [], _, _ => rw [wstk_op_nil hf] at h; exact Option.noConfusion h
      | [a], _, _ => rw [wstk_op_one hf] at h; exact Option.noConfusion h
      | a :: b :: st', hinv, hl =>
        simp only [StkInv] at hinv
        obtain ⟨haL, sa, hsale, hsablk, hsaidx, hbL, sb, hsble, hsbblk, hsbidx, hrest⟩ :=
          hinv
        rw [wstk_op hf] at h
        have hblk1 : blockOne (seg t sb (i + 1)) :=
          blockOne_merge hf hsble hsale hsbblk hsablk hdrop
        have hsble' : sb ≤ i + 1 := by omega
        have hl' : AllLeaf st' := AllLeaf_tail2 hl
        have hnext : ∀ (tm' : Term), tm'.isLeaf = true →
            wstk r (i + 1) ((none, tm') :: st') = some st2 →
            StkInv t t.length st2 := by
          intro tm' hLf h2
          refine ih (i + 1) _ st2 hdrop' (by omega) ?_ (AllLeaf_cons hLf hl') h2
          exact ⟨hLf, sb, hsble', hblk1, fun j hj => absurd hj (by simp), hrest⟩
        rcases Term.isLeaf_elim haL with ⟨x, hax⟩ | ⟨v, hav⟩
        · rcases Term.isLeaf_elim hbL with ⟨y, hby⟩ | ⟨w, hbw⟩
          · rw [hax, hby] at h
            simp only at h
            cases hfo : f x y with
            | some c => rw [hfo] at h; exact hnext (Term.num (wrap32 c)) rfl h
            | none => rw [hfo] at h; exact Option.noConfusion h
          · rw [hax, hbw] at h
            simp only at h
            exact hnext (Term.var w) rfl h
        · rw [hav] at h
          simp only at h
          exact hnext (Term.var v) rfl h

/-- On a rewrite fixed point, a completed walk's stack entries are honest:
an indexed entry holds the term at its index and an index-free entry is a
surviving `Var` summary. -/
theorem wstk_good_aux (t : List Term)
    (hnf : ∀ trip ∈ getTriples t, applyTrip t trip = none) :
    ∀ (cur : List Term) (i : Nat) (st st2 : List (Option Nat × Term))
      (pre : List Trip),
      t.drop i = cur → getTriples t = pre ++ gtAux cur i st →
      GoodStk t st → AllLeaf st →
      wstk cur i st = some st2 → GoodStk t st2 := by
  intro cur
  induction cur with
  | nil =>
    intro i st st2 pre _ _ hgs _ h
    cases h
    exact hgs
  | cons tm r ih =>
    intro i st st2 pre hdrop hpre hgs hl h
    have hdrop' : t.drop (i + 1) = r := drop_succ_of_drop_cons hdrop
    rcases Term.asOp_cases tm with ⟨n, rfl⟩ | ⟨c, rfl⟩ | ⟨f, hf⟩
    · refine ih (i + 1) _ st2 pre hdrop' hpre ?_
        (AllLeaf_cons2 (Term.num n) rfl hl) h
      intro en hen
      rcases List.mem_cons.mp hen with rfl | hmem
      · exact ⟨fun j hj => by cases hj; exact get?_of_drop_cons hdrop,
          fun hnone => Option.noConfusion hnone⟩
      · exact hgs en hmem
    · refine ih (i + 1) _ st2 pre hdrop' hpre ?_
        (AllLeaf_cons2 (Term.var c) rfl hl) h
      intro en hen
      rcases List.mem_cons.mp hen with rfl | hmem
      · exact ⟨fun j hj => by cases hj; exact get?_of_drop_cons hdrop,
          fun hnone => Option.noConfusion hnone⟩
      · exact hgs en hmem
    · match st, hgs, hl with
      | [], _, _ => rw [wstk_op_nil hf] at h; exact Option.noConfusion h
      | [a], _, _ => rw [wstk_op_one hf] at h; exact Option.noConfusion h
      | a :: b :: st', hgs, hl =>
        rw [wstk_op hf] at h
        have hl' : AllLeaf st' := AllLeaf_tail2 hl
        have hgs' : GoodStk t st' := fun en hen =>
          hgs en (List.mem_cons_of_mem _ (List.mem_cons_of_mem _ hen))
        have haL : a.2.isLeaf = true := hl a (List.mem_cons_self _ _)
        have hbL : b.2.isLeaf = true :=
          hl b (List.mem_cons_of_mem _ (List.mem_cons_self _ _))
        have hmemT : (a.1, i, b.1) ∈ getTriples t := by
          rw [hpre, gtAux_op hf]
          exact List.mem_append_right _ (List.mem_cons_self _ _)
        have hT := hnf _ hmemT
        have hk : t.get? i = some tm := get?_of_drop_cons hdrop
        rcases Term.isLeaf_elim haL with ⟨x, hax⟩ | ⟨v, hav⟩
        · rcases Term.isLeaf_elim hbL with ⟨y, hby⟩ | ⟨w, hbw⟩
          · rw [hax, hby] at h
            simp only at h
            have hga := hgs a (List.mem_cons_self _ _)
            have hgb := hgs b (List.mem_cons_of_mem _ (List.mem_cons_self _ _))
            cases haI : a.1 with
            | none =>
                obtain ⟨v, hv⟩ := hga.2 haI
                rw [hax] at hv
                exact Term.noConfusion hv
            | some ia =>
              cases hbI : b.1 with
              | none =>
                  obtain ⟨v, hv⟩ := hgb.2 hbI
                  rw [hby] at hv
                  exact Term.noConfusion hv
              | some ib =>
                have hia : t.get? ia = some (Term.num x) := by
                  have h2 := hga.1 ia haI
                  rw [hax] at h2
                  exact h2
                have hib : t.get? ib = some (Term.num y) := by
                  have h2 := hgb.1 ib hbI
                  rw [hby] at h2
                  exact h2
                have happ := applyTrip_fold_eq hia hib hk hf
                rw [haI, hbI] at hT
                cases hfo : f x y with
                | some c =>
                    rw [hfo] at happ
                    simp only at happ
                    rw [happ] at hT
                    exact Option.noConfusion hT
                | none => rw [hfo] at h; exact Option.noConfusion h
          · rw [hax, hbw] at h
            simp only at h
            refine ih (i + 1) _ st2 (pre ++ [(a.1, i, b.1)]) hdrop' ?_ ?_
              (AllLeaf_cons2 (Term.var w) rfl hl') h
            · rw [hpre, gtAux_op hf, hax, hbw]
              simp only
              rw [List.append_cons]
            · intro en hen
              rcases List.mem_cons.mp hen with rfl | hmem
              · exact ⟨fun j hj => Option.noConfusion hj, fun _ => ⟨w, rfl⟩⟩
              · exact hgs' en hmem
        · rw [hav] at h
          simp only at h
          refine ih (i + 1) _ st2 (pre ++ [(a.1, i, b.1)]) hdrop' ?_ ?_
            (AllLeaf_cons2 (Term.var v) rfl hl') h
          · rw [hpre, gtAux_op hf, hav]
            simp only
            rw [List.append_cons]
          · intro en hen
            rcases List.mem_cons.mp hen with rfl | hmem
            · exact ⟨fun j hj => Option.noConfusion hj, fun _ => ⟨v, rfl⟩⟩
            · exact hgs' en hmem

/-- `wstk_good_aux` at the start of the walk. -/
theorem wstk_good {t : List Term} (hfix : reduceStep t = none)
    {st2 : List (Option Nat × Term)} (h : wstk t 0 [] = some st2) :
    GoodStk t st2 := by
  have hnf : ∀ trip ∈ getTriples t, applyTrip t trip = none :=
    firstRewrite_none_iff.mp hfix
  exact wstk_good_aux t hnf t 0 [] st2 [] rfl rfl
    (fun en hen => absurd hen (List.not_mem_nil en)) (fun en hen => absurd hen
      (List.not_mem_nil en)) h

theorem get?_embed {e pre suf : List Term} {m : Nat} (hm : m < e.length) :
    (pre ++ (e ++ suf)).get? (m + pre.length) = e.get? m := by
  rw [List.get?_eq_getElem?, List.get?_eq_getElem?,
    List.getElem?_append_right (by omega : pre.length ≤ m + pre.length),
    Nat.add_sub_cancel, List.getElem?_append_left hm]

/-- When both operand indices of a triple resolve to `Num` terms but the
middle term has no opcode function, the triple does not fire. -/
theorem applyTrip_fold_noop {t : List Term} {ia ib k : Nat} {x y : Int} {tm : Term}
    (ha : t.get? ia = some (Term.num x)) (hb : t.get? ib = some (Term.num y))
    (hk : t.get? k = some tm) (hf : tm.asOp = none) :
    applyTrip t (some ia, k, some ib) = none := by
  simp only [List.get?_eq_getElem?] at ha hb hk
  unfold applyTrip
  simp [ha, hb, hk, hf]

/-- Unless both operands resolve to `Num` terms, `applyTrip` is the
absorption chain `tripAbsorb`. -/
theorem applyTrip_else_eq {t : List Term} {aI bI : Option Nat} {k : Nat} {opT : Term}
    (hk : t.get? k = some opT)
    (h : aI.bind t.get? = none ∨
         (∃ c, aI.bind t.get? = some (Term.var c)) ∨
         ((∃ x, aI.bind t.get? = some (Term.num x)) ∧
           (bI.bind t.get? = none ∨ ∃ c, bI.bind t.get? = some (Term.var c)))) :
    applyTrip t (aI, k, bI) =
      tripAbsorb t aI bI k opT (aI.bind t.get?) (bI.bind t.get?) := by
  simp only [List.get?_eq_getElem?] at hk h ⊢
  rcases h with ha | ⟨c, ha⟩ | ⟨⟨x, ha⟩, hb | ⟨c, hb⟩⟩
  · unfold applyTrip tripAbsorb
    simp [hk, ha]
  · unfold applyTrip tripAbsorb
    simp [hk, ha]
  · unfold applyTrip tripAbsorb
    simp [hk, ha, hb]
  · unfold applyTrip tripAbsorb
    simp [hk, ha, hb]

/-- `tripAbsorb` fails on one input exactly when it fails on another with the
same resolved operator and operands and the same operand-index presence. -/
theorem tripAbsorb_none_congr {t t2 : List Term} {aI bI aI2 bI2 : Option Nat}
    {k k2 : Nat} {opT : Term} {aT bT : Option Term}
    (haS : aI2.isSome = aI.isSome) (hbS : bI2.isSome = bI.isSome) :
    (tripAbsorb t2 aI2 bI2 k2 opT aT bT = none ↔
      tripAbsorb t aI bI k opT aT bT = none) := by
  unfold tripAbsorb
  split_ifs <;> try simp
  · cases aI2 <;> cases aI <;> simp_all
  · cases bI2 <;> cases bI <;> simp_all

/-- A triple of the walk invariant that does not fire on `e` also does not
fire, shifted, on any embedding `pre ++ e ++ suf` of `e`. -/
theorem applyTrip_shift_none {e : List Term} (pre suf : List Term) {aI bI : Option Nat}
    {k : Nat} (hinv : TripInv e (aI, k, bI))
    (happ : applyTrip e (aI, k, bI) = none) :
    applyTrip (pre ++ (e ++ suf)) (shiftT pre.length (aI, k, bI)) = none := by
  obtain ⟨sb, sa, hsbsa, hsak, hklen, hblkB, hblkA, haIdx, hbIdx⟩ := hinv
  cases hgk : e.get? k with
  | none =>
      have hc := List.get?_eq_none.mp hgk
      omega
  | some opT =>
  have hop2 : (pre ++ (e ++ suf)).get? (k + pre.length) = some opT := by
    rw [get?_embed hklen]; exact hgk
  have ha2 : (aI.map (· + pre.length)).bind (pre ++ (e ++ suf)).get? =
      aI.bind e.get? := by
    cases aI with
    | none => rfl
    | some ia =>
        obtain ⟨hia1, hia2⟩ := haIdx ia rfl
        have hia : ia < e.length := by omega
        show (pre ++ (e ++ suf)).get? (ia + pre.length) = e.get? ia
        exact get?_embed hia
  have hb2 : (bI.map (· + pre.length)).bind (pre ++ (e ++ suf)).get? =
      bI.bind e.get? := by
    cases bI with
    | none => rfl
    | some jb =>
        obtain ⟨hjb1, hjb2⟩ := hbIdx jb rfl
        have hjb : jb < e.length := by omega
        show (pre ++ (e ++ suf)).get? (jb + pre.length) = e.get? jb
        exact get?_embed hjb
  rw [shiftT_mk]
  cases haT : aI.bind e.get? with
  | none =>
      rw [applyTrip_else_eq hop2 (Or.inl (by rw [ha2]; exact haT))]
      rw [applyTrip_else_eq hgk (Or.inl haT)] at happ
      rw [ha2, hb2, haT]
      rw [haT] at happ
      exact (tripAbsorb_none_congr (by simp) (by simp)).mpr happ
  | some u =>
      cases aI with
      | none => exact absurd haT (by simp)
      | some ia =>
        obtain ⟨hia1, hia2⟩ := haIdx ia rfl
        have hgeta : e.get? ia = some u := haT
        have hlf : u.isLeaf = true := by
          have hseg : seg e ia (ia + 1) = [u] := seg_single_of_get? hgeta
          have hblk : blockOne [u] := by
            rw [← hseg]
            have h3 : ia + 1 = k := by omega
            rw [h3, hia1]
            exact hblkA
          exact blockOne_single_isLeaf hblk
        rcases Term.isLeaf_elim hlf with ⟨xa, hxa⟩ | ⟨ca, hca⟩
        · rw [hxa] at haT hgeta
          cases hbT : bI.bind e.get? with
          | none =>
              rw [applyTrip_else_eq hop2 (Or.inr (Or.inr ⟨⟨xa, by rw [ha2]; exact haT⟩,
                Or.inl (by rw [hb2]; exact hbT)⟩))]
              rw [applyTrip_else_eq hgk (Or.inr (Or.inr ⟨⟨xa, haT⟩, Or.inl hbT⟩))] at happ
              rw [ha2, hb2, haT, hbT]
              rw [haT, hbT] at happ
              exact (tripAbsorb_none_congr (by simp) (by simp)).mpr happ
          | some w =>
            cases bI with
            | none => exact absurd hbT (by simp)
            | some jb =>
              obtain ⟨hjb1, hjb2⟩ := hbIdx jb rfl
              have hgetb : e.get? jb = some w := hbT
              have hlfb : w.isLeaf = true := by
                have hseg : seg e jb (jb + 1) = [w] := seg_single_of_get? hgetb
                have hblk : blockOne [w] := by
                  rw [← hseg]
                  have h3 : jb + 1 = sa := by omega
                  rw [h3, hjb1]
                  exact hblkB
                exact blockOne_single_isLeaf hblk
              rcases Term.isLeaf_elim hlfb with ⟨yb, hyb⟩ | ⟨cb, hcb⟩
              · rw [hyb] at hbT hgetb
                have hia' : ia < e.length := by omega
                have hjb' : jb < e.length := by omega
                have hgeta2 : (pre ++ (e ++ suf)).get? (ia + pre.length) =
                    some (Term.num xa) := by rw [get?_embed hia']; exact hgeta
                have hgetb2 : (pre ++ (e ++ suf)).get? (jb + pre.length) =
                    some (Term.num yb) := by rw [get?_embed hjb']; exact hgetb
                cases hasOp : opT.asOp with
                | none =>
                    show applyTrip (pre ++ (e ++ suf))
                      (some (ia + pre.length), k + pre.length,
                        some (jb + pre.length)) = none
                    exact applyTrip_fold_noop hgeta2 hgetb2 hop2 hasOp
                | some f =>
                    have he := applyTrip_fold_eq hgeta hgetb hgk hasOp
                    rw [he] at happ
                    cases hfo : f xa yb with
                    | some c => rw [hfo] at happ; simp at happ
                    | none =>
                        show applyTrip (pre ++ (e ++ suf))
                          (some (ia + pre.length), k + pre.length,
                            some (jb + pre.length)) = none
                        rw [applyTrip_fold_eq hgeta2 hgetb2 hop2 hasOp, hfo]
              · rw [hcb] at hbT
                rw [applyTrip_else_eq hop2 (Or.inr (Or.inr ⟨⟨xa, by rw [ha2]; exact haT⟩,
                  Or.inr ⟨cb, by rw [hb2]; exact hbT⟩⟩))]
                rw [applyTrip_else_eq hgk (Or.inr (Or.inr ⟨⟨xa, haT⟩,
                  Or.inr ⟨cb, hbT⟩⟩))] at happ
                rw [ha2, hb2, haT, hbT]
                rw [haT, hbT] at happ
                exact (tripAbsorb_none_congr (by simp) (by simp)).mpr happ
        · rw [hca] at haT
          rw [applyTrip_else_eq hop2 (Or.inr (Or.inl ⟨ca, by rw [ha2]; exact haT⟩))]
          rw [applyTrip_else_eq hgk (Or.inr (Or.inl ⟨ca, haT⟩))] at happ
          rw [ha2, hb2, haT]
          rw [haT] at happ
          exact (tripAbsorb_none_congr (by simp) (by simp)).mpr happ

/-- A well-formed postfix expression of length at least two cannot end in a
`Num` literal (its nonempty prefix would have to leave zero values). -/
theorem WF_last_not_num {e : List Term} (hwf : WF e) (hlen : 2 ≤ e.length)
    {x : Int} (hlast : e.get? (e.length - 1) = some (Term.num x)) : False := by
  have h1 : e.take (e.length - 1) ++ seg e (e.length - 1) e.length =
      e.take e.length := take_append_seg e (by omega)
  rw [List.take_length] at h1
  have h2 : e.length - 1 + 1 = e.length := by omega
  have h3 := seg_single_of_get? hlast
  rw [h2] at h3
  rw [h3] at h1
  have hwa : wfAux (e.take (e.length - 1) ++ [Term.num x]) 0 = some 1 := by
    rw [h1]; exact hwf
  rw [wfAux_append] at hwa
  cases hpre : wfAux (e.take (e.length - 1)) 0 with
  | none => rw [hpre] at hwa; exact Option.noConfusion hwa
  | some m =>
      rw [hpre] at hwa
      have hwa2 : wfAux [Term.num x] m = some 1 := hwa
      have hm : wfAux [Term.num x] m = some (m + 1) := by rw [wfAux_num]; rfl
      rw [hm] at hwa2
      have hm0 : m = 0 := by simpa using hwa2
      have hne : e.take (e.length - 1) ≠ [] := by
        have hl := length_take_of_le (t := e) (i := e.length - 1) (by omega)
        intro hc
        rw [hc] at hl
        simp at hl
        omega
      have := wfAux_pos (e.take (e.length - 1)) 0 m hne hpre
      omega

/-- Appending `Num n` below and `Mod` above a simplified well-formed
expression of length at least two produces a rewrite fixed point: the
shifted triples of `e` still fail, and the new `Mod` triple's left operand
is a surviving `Var` summary or index-free, so no absorption arm matches. -/
theorem reduceStep_embed_mod {e : List Term} (n : Int) (hwf : WF e)
    (hfix : reduceStep e = none) (hlen : 2 ≤ e.length) :
    reduceStep (Term.num n :: (e ++ [Term.mod])) = none := by
  have hwfe : wfAux e 0 = some 1 := hwf
  have hnf : ∀ trip ∈ getTriples e, applyTrip e trip = none :=
    firstRewrite_none_iff.mp hfix
  have hinvAll : ∀ trip ∈ getTriples e, TripInv e trip :=
    fun trip htr => gt_inv e e 0 [] rfl trivial trip htr
  have hstep : getTriples (Term.num n :: (e ++ [Term.mod])) =
      gtAux (e ++ [Term.mod]) 1 [(some 0, Term.num n)] := rfl
  have hB : AllLeaf [(some 0, Term.num n)] :=
    AllLeaf_cons2 (Term.num n) rfl (fun en hen => absurd hen (List.not_mem_nil en))
  have happend := gtAux_append e [Term.mod] 1 [(some 0, Term.num n)] hB
  have hnil : AllLeaf ([] : List (Option Nat × Term)) :=
    fun en hen => absurd hen (List.not_mem_nil en)
  have hshift := gt_shift e 0 1 [] [(some 0, Term.num n)] hnil
    (by rw [List.length_nil, hwfe]; rfl)
  have hsh1 : gtAux e 1 [(some 0, Term.num n)] = (getTriples e).map (shiftT 1) :=
    hshift.1
  have hsh2 : wstk e 1 [(some 0, Term.num n)] =
      (wstk e 0 []).map (fun s2 => s2.map (shiftE 1) ++ [(some 0, Term.num n)]) :=
    hshift.2
  have hshifted_none : ∀ trip ∈ (getTriples e).map (shiftT 1),
      applyTrip (Term.num n :: (e ++ [Term.mod])) trip = none := by
    intro trip htr
    rcases List.mem_map.mp htr with ⟨tr0, htr0, rfl⟩
    obtain ⟨aI, k, bI⟩ := tr0
    exact applyTrip_shift_none [Term.num n] [Term.mod] (hinvAll _ htr0) (hnf _ htr0)
  cases hws : wstk e 0 [] with
  | none =>
      have hgt : getTriples (Term.num n :: (e ++ [Term.mod])) =
          (getTriples e).map (shiftT 1) := by
        rw [hstep, happend, hsh1, hsh2, hws]
        simp
      show firstRewrite (Term.num n :: (e ++ [Term.mod]))
        (getTriples (Term.num n :: (e ++ [Term.mod]))) = none
      rw [hgt]
      exact firstRewrite_none_iff.mpr hshifted_none
  | some st1 =>
      have hlen1 := wstk_length e 0 [] st1 hnil hws
      have h1 : wfAux e 0 = some st1.length := hlen1.1
      rw [hwfe] at h1
      have hone : st1.length = 1 := (Option.some.inj h1).symm
      cases st1 with
      | nil => rw [List.length_nil] at hone; omega
      | cons en st1' =>
        cases st1' with
        | cons a l =>
            rw [List.length_cons, List.length_cons] at hone
            omega
        | nil =>
          have hgood := wstk_good hfix hws
          have hsi := wstk_StkInv e e 0 [] [en] rfl (Nat.zero_le _) trivial hnil hws
          simp only [StkInv] at hsi
          obtain ⟨hLf, s, hs1, hs2, hs3, -⟩ := hsi
          rcases Term.isLeaf_elim hLf with ⟨x, hvx⟩ | ⟨v, hv⟩
          · cases hen1 : en.1 with
            | none =>
                obtain ⟨w, hw⟩ := (hgood en (List.mem_cons_self _ _)).2 hen1
                rw [hvx] at hw
                exact Term.noConfusion hw
            | some j =>
                obtain ⟨hj1, hj2⟩ := hs3 j hen1
                have hg := (hgood en (List.mem_cons_self _ _)).1 j hen1
                rw [hvx] at hg
                have hj3 : j = e.length - 1 := by omega
                rw [hj3] at hg
                exact (WF_last_not_num hwf hlen hg).elim
          · have hfm : Term.mod.asOp =
                some (fun a b =>
                  if b = 0 ∨ (a = i64Min ∧ b = -1) then none else some (a.tmod b)) :=
              rfl
            have hmodT : gtAux [Term.mod] (1 + e.length)
                [shiftE 1 en, (some 0, Term.num n)] =
                [((shiftE 1 en).1, 1 + e.length, some 0)] := by
              rw [gtAux_op hfm]
              simp only [shiftE_snd]
              rw [hv]
              rfl
            have hopmod : (Term.num n :: (e ++ [Term.mod])).get? (1 + e.length) =
                some Term.mod := by
              have h2 : 1 + e.length = e.length + 1 := by omega
              rw [h2]
              show (e ++ [Term.mod]).get? e.length = some Term.mod
              rw [List.get?_eq_getElem?,
                List.getElem?_append_right (le_refl e.length), Nat.sub_self]
              rfl
            have hta : applyTrip (Term.num n :: (e ++ [Term.mod]))
                ((shiftE 1 en).1, 1 + e.length, some 0) = none := by
              apply applyTrip_avar_none hopmod (by simp) (by simp)
              rw [shiftE_fst]
              cases hen1 : en.1 with
              | none => left; rfl
              | some j =>
                  right
                  obtain ⟨hj1, hj2⟩ := hs3 j hen1
                  refine ⟨v, ?_⟩
                  have hjlen : j < e.length := by omega
                  have hg := (hgood en (List.mem_cons_self _ _)).1 j hen1
                  rw [hv] at hg
                  show ([Term.num n] ++ (e ++ [Term.mod])).get?
                    (j + [Term.num n].length) = some (Term.var v)
                  rw [get?_embed hjlen]
                  exact hg
            have hgt : getTriples (Term.num n :: (e ++ [Term.mod])) =
                (getTriples e).map (shiftT 1) ++
                  [((shiftE 1 en).1, 1 + e.length, some 0)] := by
              rw [hstep, happend, hsh1, hsh2, hws]
              simp only [Option.map_some', List.map_cons, List.map_nil,
                List.singleton_append]
              rw [hmodT]
            show firstRewrite (Term.num n :: (e ++ [Term.mod]))
              (getTriples (Term.num n :: (e ++ [Term.mod]))) = none
            rw [hgt]
            apply firstRewrite_none_iff.mpr
            intro trip htr
            rcases List.mem_append.mp htr with hm | hm
            · exact hshifted_none trip hm
            · rw [List.mem_singleton] at hm
              rw [hm]
              exact hta

theorem rtGo_succ (f : Nat) (t : List Term) :
    rtGo (f + 1) t =
      match reduceStep t with
      | none => t
      | some t2 => rtGo f t2 := rfl

theorem tmod_gt_neg {m n : Int} (h : 0 < n) : -n < m.tmod n := by
  have h2 : (-m).tmod n = -(m.tmod n) := by
    rw [Int.tmod_def, Int.tmod_def, Int.neg_tdiv]
    ring
  have h1 : (-m).tmod n < n := Int.tmod_lt_of_pos (-m) h
  omega

theorem wrap32_one : wrap32 1 = 1 := by decide

/-- Simplifying the three-term comparison `[Num n, Num r, Lt]` constant-folds
to `Num 1` when `r < n`. -/
theorem simplify_lt_lit {n r : Int} (h : r < n) :
    simplify [Term.num n, Term.num r, Term.lt] = [Term.num 1] := by
  have hlt : Term.lt.asOp = some (fun a b => some (if a < b then 1 else 0)) := rfl
  have htr : getTriples [Term.num n, Term.num r, Term.lt] = [(some 1, 2, some 0)] := by
    show gtAux [Term.lt] 2 [(some 1, Term.num r), (some 0, Term.num n)] = _
    rw [gtAux_op hlt]
    simp only
    rw [if_pos h]
    rfl
  have ha : [Term.num n, Term.num r, Term.lt].get? 1 = some (Term.num r) := rfl
  have hb : [Term.num n, Term.num r, Term.lt].get? 0 = some (Term.num n) := rfl
  have hk : [Term.num n, Term.num r, Term.lt].get? 2 = some Term.lt := rfl
  have happ : applyTrip [Term.num n, Term.num r, Term.lt] (some 1, 2, some 0) =
      some [Term.num 1] := by
    rw [applyTrip_fold_eq ha hb hk hlt, if_pos h]
    rfl
  have hstep : reduceStep [Term.num n, Term.num r, Term.lt] = some [Term.num 1] := by
    unfold reduceStep
    rw [htr]
    unfold firstRewrite
    rw [happ]
  show rtGo (3 + 1) [Term.num n, Term.num r, Term.lt] = [Term.num 1]
  rw [rtGo_succ, hstep]
  rfl

/-- Simplifying the three-term remainder `[Num n, Num m, Mod]` constant-folds
to the truncated remainder when `0 < n < 2^31`. -/
theorem simplify_mod_lit {n m : Int} (hn : 0 < n) (hn31 : n < 2 ^ 31) :
    simplify [Term.num n, Term.num m, Term.mod] = [Term.num (m.tmod n)] := by
  have hfm : Term.mod.asOp =
      some (fun a b =>
        if b = 0 ∨ (a = i64Min ∧ b = -1) then none else some (a.tmod b)) := rfl
  have hcond : ¬(n = 0 ∨ (m = i64Min ∧ n = -1)) := by
    rintro (h1 | ⟨h1, h2⟩) <;> omega
  have hwr : wrap32 (m.tmod n) = m.tmod n := by
    have hu := Int.tmod_lt_of_pos m hn
    have hl := tmod_gt_neg (m := m) hn
    exact wrap32_eq_self (by omega) (by omega)
  have htr : getTriples [Term.num n, Term.num m, Term.mod] = [(some 1, 2, some 0)] := by
    show gtAux [Term.mod] 2 [(some 1, Term.num m), (some 0, Term.num n)] = _
    rw [gtAux_op hfm]
    simp only
    rw [if_neg hcond]
    rfl
  have ha : [Term.num n, Term.num m, Term.mod].get? 1 = some (Term.num m) := rfl
  have hb : [Term.num n, Term.num m, Term.mod].get? 0 = some (Term.num n) := rfl
  have hk : [Term.num n, Term.num m, Term.mod].get? 2 = some Term.mod := rfl
  have happ : applyTrip [Term.num n, Term.num m, Term.mod] (some 1, 2, some 0) =
      some [Term.num (m.tmod n)] := by
    rw [applyTrip_fold_eq ha hb hk hfm, if_neg hcond]
    show some (remove2 ([Term.num n, Term.num m, Term.mod].set 1
      (Term.num (wrap32 (m.tmod n)))) 2 0) = some [Term.num (m.tmod n)]
    rw [hwr]
    rfl
  have hstep : reduceStep [Term.num n, Term.num m, Term.mod] =
      some [Term.num (m.tmod n)] := by
    unfold reduceStep
    rw [htr]
    unfold firstRewrite
    rw [happ]
  show rtGo (3 + 1) [Term.num n, Term.num m, Term.mod] = [Term.num (m.tmod n)]
  rw [rtGo_succ, hstep]
  rfl

/-- The `(e % n).lt(n)` identity: for a simplified well-formed expression and
a positive `i32` literal `n` the combination collapses to `Num 1`, by
constant folding when `e` is a literal and by the `lt` peephole otherwise. -/
theorem mod_lt_identity {e : List Term} {n : Int} (hwf : WF e)
    (hfix : reduceStep e = none) (hn : 0 < n) (hn31 : n < 2 ^ 31) :
    ltE (remE e (scalarE n)) (scalarE n) = [Term.num 1] := by
  have hwrapn : wrap32 n = n := wrap32_eq_self (by omega) hn31
  have hsc : scalarE n = [Term.num n] := by
    show [Term.num (wrap32 n)] = [Term.num n]
    rw [hwrapn]
  rw [hsc]
  by_cases hA : n = 1 ∨ e = [Term.num n]
  · have hcnd : [Term.num n] = [Term.num 1] ∨ [Term.num n] = e := by
      rcases hA with h1 | h1
      · left; rw [h1]
      · right; rw [h1]
    have hrem : remE e [Term.num n] = [Term.num 0] := by
      unfold remE
      rw [if_pos hcnd]
    rw [hrem]
    unfold ltE
    rw [if_neg (by
      intro hc
      rw [List.cons.injEq] at hc
      have h2 := Term.num.inj hc.1
      omega)]
    show (if [Term.num 0].getLast? = some Term.mod ∧
        [Term.num 0].head? = some (Term.num n) then [Term.num 1]
      else simplify ([Term.num n] ++ [Term.num 0] ++ [Term.lt])) = [Term.num 1]
    rw [if_neg (by
      intro hc
      exact Term.noConfusion (Option.some.inj hc.1))]
    show simplify [Term.num n, Term.num 0, Term.lt] = [Term.num 1]
    exact simplify_lt_lit hn
  · push_neg at hA
    obtain ⟨hn1, hene⟩ := hA
    have hno : ¬([Term.num n] = [Term.num 1] ∨ [Term.num n] = e) := by
      rintro (hc | hc)
      · rw [List.cons.injEq] at hc
        exact hn1 (Term.num.inj hc.1)
      · exact hene hc.symm
    have hrem : remE e [Term.num n] =
        simplify ([Term.num n] ++ e ++ [Term.mod]) := by
      unfold remE
      rw [if_neg hno]
    rw [hrem]
    cases e with
    | nil =>
        have h0 : (some 0 : Option Nat) = some 1 := hwf
        exact absurd (Option.some.inj h0) (by omega)
    | cons t0 e' =>
      cases e' with
      | nil =>
          rcases Term.asOp_cases t0 with ⟨m, rfl⟩ | ⟨c, rfl⟩ | ⟨f, hf⟩
          · have hmod : simplify ([Term.num n] ++ [Term.num m] ++ [Term.mod]) =
                [Term.num (m.tmod n)] := by
              show simplify [Term.num n, Term.num m, Term.mod] = _
              exact simplify_mod_lit hn hn31
            rw [hmod]
            have hltn := Int.tmod_lt_of_pos m hn
            unfold ltE
            rw [if_neg (by
              intro hc
              rw [List.cons.injEq] at hc
              have h2 := Term.num.inj hc.1
              omega)]
            show (if [Term.num (m.tmod n)].getLast? = some Term.mod ∧
                [Term.num (m.tmod n)].head? = some (Term.num n) then [Term.num 1]
              else simplify ([Term.num n] ++ [Term.num (m.tmod n)] ++ [Term.lt])) =
              [Term.num 1]
            rw [if_neg (by
              intro hc
              exact Term.noConfusion (Option.some.inj hc.1))]
            show simplify [Term.num n, Term.num (m.tmod n), Term.lt] = [Term.num 1]
            exact simplify_lt_lit hltn
          · have hfm : Term.mod.asOp =
                some (fun a b =>
                  if b = 0 ∨ (a = i64Min ∧ b = -1) then none
                  else some (a.tmod b)) := rfl
            have htr : getTriples [Term.num n, Term.var c, Term.mod] =
                [(some 1, 2, some 0)] := by
              show gtAux [Term.mod] 2 [(some 1, Term.var c), (some 0, Term.num n)] = _
              rw [gtAux_op hfm]
              rfl
            have happ0 : applyTrip [Term.num n, Term.var c, Term.mod]
                (some 1, 2, some 0) = none := by
              have hop0 : [Term.num n, Term.var c, Term.mod].get? 2 =
                  some Term.mod := rfl
              apply applyTrip_avar_none hop0 (by simp) (by simp)
              right
              exact ⟨c, rfl⟩
            have hrs : reduceStep [Term.num n, Term.var c, Term.mod] = none := by
              unfold reduceStep
              rw [htr]
              unfold firstRewrite
              rw [happ0]
              rfl
            have hid : simplify ([Term.num n] ++ [Term.var c] ++ [Term.mod]) =
                [Term.num n, Term.var c, Term.mod] := by
              show simplify [Term.num n, Term.var c, Term.mod] = _
              exact simplify_fix hrs
            rw [hid]
            unfold ltE
            rw [if_neg (by simp)]
            show (if [Term.num n, Term.var c, Term.mod].getLast? = some Term.mod ∧
                [Term.num n, Term.var c, Term.mod].head? = some (Term.num n)
              then [Term.num 1]
              else simplify ([Term.num n] ++ [Term.num n, Term.var c, Term.mod] ++
                [Term.lt])) = [Term.num 1]
            rw [if_pos ⟨rfl, rfl⟩]
          · have h0 : wfAux [t0] 0 = some 1 := hwf
            rw [wfAux_op_zero hf] at h0
            exact Option.noConfusion h0
      | cons t1 e'' =>
          have hlen2 : 2 ≤ (t0 :: t1 :: e'').length := by
            rw [List.length_cons, List.length_cons]
            omega
          have hrs := reduceStep_embed_mod n hwf hfix hlen2
          have hid : simplify ([Term.num n] ++ (t0 :: t1 :: e'') ++ [Term.mod]) =
              Term.num n :: ((t0 :: t1 :: e'') ++ [Term.mod]) := by
            show simplify (Term.num n :: ((t0 :: t1 :: e'') ++ [Term.mod])) = _
            exact simplify_fix hrs
          rw [hid]
          have hgl : (Term.num n :: ((t0 :: t1 :: e'') ++ [Term.mod])).getLast? =
              some Term.mod := by
            rw [show Term.num n :: ((t0 :: t1 :: e'') ++ [Term.mod]) =
              (Term.num n :: t0 :: t1 :: e'') ++ [Term.mod] from rfl]
            exact List.getLast?_concat _
          unfold ltE
          rw [if_neg (by simp)]
          show (if (Term.num n :: ((t0 :: t1 :: e'') ++ [Term.mod])).getLast? =
              some Term.mod ∧
              (Term.num n :: ((t0 :: t1 :: e'') ++ [Term.mod])).head? =
                some (Term.num n)
            then [Term.num 1]
            else simplify ([Term.num n] ++
              (Term.num n :: ((t0 :: t1 :: e'') ++ [Term.mod])) ++ [Term.lt])) =
            [Term.num 1]
          rw [if_pos ⟨hgl, rfl⟩]

theorem wrap32_zero : wrap32 0 = 0 := by decide

/-- C3: for every simplified well-formed expression `e` (the form of every
expression the public combinators produce) and every positive `i32` literal
`n`, the twelve stated simplification identities hold as syntactic
equalities of term sequences: `e+0 = e`, `e*1 = e`, `e*0 = Num 0`,
`e/1 = e`, `e-e = Num 0`, `e/e = Num 1`, `min(e,e) = e`, `max(e,e) = e`,
`max(e,0) = e`, `(e % n).lt(n) = Num 1`, `gte(e,e) = Num 1`, and
`lt(e,e) = Num 0`. -/
theorem C3_simplification_identities (e : List Term) (n : Int)
    (hwf : WF e) (hfix : reduceStep e = none) (hn : 0 < n) (hn31 : n < 2 ^ 31) :
    addE e (scalarE 0) = e ∧
    mulE e (scalarE 1) = e ∧
    mulE e (scalarE 0) = [Term.num 0] ∧
    divE e (scalarE 1) = e ∧
    subE e e = [Term.num 0] ∧
    divE e e = [Term.num 1] ∧
    minE e e = e ∧
    maxE e e = e ∧
    maxE e (scalarE 0) = e ∧
    ltE (remE e (scalarE n)) (scalarE n) = [Term.num 1] ∧
    gteE e e = [Term.num 1] ∧
    ltE e e = [Term.num 0] := by
  have hs0 : scalarE 0 = [Term.num 0] := by
    show [Term.num (wrap32 0)] = [Term.num 0]
    rw [wrap32_zero]
  have hs1 : scalarE 1 = [Term.num 1] := by
    show [Term.num (wrap32 1)] = [Term.num 1]
    rw [wrap32_one]
  refine ⟨?_, ?_, ?_, ?_, ?_, ?_, ?_, ?_, ?_, ?_, ?_, ?_⟩
  · rw [hs0]; unfold addE; rw [if_pos rfl]
  · rw [hs1]; unfold mulE; rw [if_pos rfl]
  · rw [hs0]
    unfold mulE
    by_cases h1 : e = [Term.num 1]
    · rw [if_neg (by simp), if_pos h1]
    · rw [if_neg (by simp), if_neg h1, if_pos (Or.inl rfl)]
  · rw [hs1]; unfold divE; rw [if_pos rfl]
  · unfold subE
    by_cases h1 : e = [Term.num 0]
    · rw [if_pos h1]; exact h1
    · rw [if_neg h1, if_pos rfl]
  · unfold divE
    by_cases h1 : e = [Term.num 1]
    · rw [if_pos h1]; exact h1
    · rw [if_neg h1, if_pos rfl]
  · unfold minE; rw [if_pos rfl]
  · unfold maxE; rw [if_pos (Or.inl rfl)]
  · rw [hs0]; unfold maxE; rw [if_pos (Or.inr rfl)]
  · exact mod_lt_identity hwf hfix hn hn31
  · unfold gteE; rw [if_pos rfl]
  · unfold ltE; rw [if_pos rfl]

/-- Witness for C3 at the concrete expression `e = Var 'a'` and literal
`n = 3`. -/
theorem C3_witness :
    addE [Term.var 'a'] (scalarE 0) = [Term.var 'a'] ∧
    mulE [Term.var 'a'] (scalarE 1) = [Term.var 'a'] ∧
    mulE [Term.var 'a'] (scalarE 0) = [Term.num 0] ∧
    divE [Term.var 'a'] (scalarE 1) = [Term.var 'a'] ∧
    subE [Term.var 'a'] [Term.var 'a'] = [Term.num 0] ∧
    divE [Term.var 'a'] [Term.var 'a'] = [Term.num 1] ∧
    minE [Term.var 'a'] [Term.var 'a'] = [Term.var 'a'] ∧
    maxE [Term.var 'a'] [Term.var 'a'] = [Term.var 'a'] ∧
    maxE [Term.var 'a'] (scalarE 0) = [Term.var 'a'] ∧
    ltE (remE [Term.var 'a'] (scalarE 3)) (scalarE 3) = [Term.num 1] ∧
    gteE [Term.var 'a'] [Term.var 'a'] = [Term.num 1] ∧
    ltE [Term.var 'a'] [Term.var 'a'] = [Term.num 0] :=
  C3_simplification_identities [Term.var 'a'] 3 (by decide) (by decide)
    (by decide) (by decide)

theorem chk64_eq_self {c : Int} (h1 : i64Min ≤ c) (h2 : c ≤ i64Max) :
    chk64 c = some c := by
  unfold chk64
  rw [if_pos ⟨h1, h2⟩]

theorem bexecT_lit (env : Char → Option Int) {n : Int} (h : inB n) :
    ∀ st, bexecT env [Term.num n] st = some (n :: st) := by
  intro st
  show (if inB n then some (n :: st) else none) = some (n :: st)
  rw [if_pos h]

theorem bexecT_lit_val {env : Char → Option Int} {n vb : Int}
    (h : bexecT env [Term.num n] [] = some [vb]) : vb = n := by
  by_cases hn : inB n
  · have h2 : (if inB n then some ([n] : List Int) else none) = some [vb] := h
    rw [if_pos hn] at h2
    exact (List.cons.inj (Option.some.inj h2)).1.symm
  · have h2 : (if inB n then some ([n] : List Int) else none) = some [vb] := h
    rw [if_neg hn] at h2
    exact Option.noConfusion h2

/-- A bounded run is in particular a successful run of the real machine. -/
theorem execT_of_bexecT (env : Char → Option Int) :
    ∀ (t : List Term) (st st2 : List Int),
      bexecT env t st = some st2 → execT env t st = ExecRes.ok st2 := by
  intro t
  induction t with
  | nil =>
    intro st st2 h
    cases h
    rfl
  | cons tm r ih =>
    intro st st2 h
    rcases Term.asOp_cases tm with ⟨n, rfl⟩ | ⟨c, rfl⟩ | ⟨f, hf⟩
    · have h2 : (if inB n then bexecT env r (n :: st) else none) = some st2 := h
      by_cases hn : inB n
      · rw [if_pos hn] at h2
        exact ih (n :: st) st2 h2
      · rw [if_neg hn] at h2
        exact Option.noConfusion h2
    · cases hc : env c with
      | some v =>
          rw [bexecT, hc] at h
          simp only at h
          rw [execT, hc]
          by_cases hv : inB (usizeToI64 v)
          · rw [if_pos hv] at h
            exact ih _ st2 h
          · rw [if_neg hv] at h
            exact Option.noConfusion h
      | none => rw [bexecT, hc] at h; exact Option.noConfusion h
    · match st with
      | [] => rw [bexecT_op_nil env hf] at h; exact Option.noConfusion h
      | [a] => rw [bexecT_op_one env hf] at h; exact Option.noConfusion h
      | a :: b :: st3 =>
          rw [bexecT_op env hf] at h
          rw [execT_op env hf]
          cases hab : f a b with
          | some c =>
              rw [hab] at h
              simp only at h
              by_cases hc : inB c
              · rw [if_pos hc] at h
                exact ih _ st2 h
              · rw [if_neg hc] at h
                exact Option.noConfusion h
          | none =>
              rw [hab] at h
              exact Option.noConfusion h

/-- A bounded run of a whole expression gives the `exec` return value
unchanged (the final `as usize` cast is the identity on `[0, i32::MAX)`). -/
theorem exec_of_bexecT {t : List Term} {env : Char → Option Int} {v : Int}
    (h : bexecT env t [] = some [v]) (hv : inB v) :
    exec t env = ExecOut.ret (some v) := by
  show (match execT env t [] with
    | ExecRes.crash => ExecOut.crash
    | ExecRes.unbound => ExecOut.ret none
    | ExecRes.ok st2 => ExecOut.ret (st2.head?.map i64ToUsize)) = ExecOut.ret (some v)
  rw [execT_of_bexecT env t [] [v] h]
  show ExecOut.ret (some (i64ToUsize v)) = ExecOut.ret (some v)
  rw [i64ToUsize_eq_self hv.1 (by obtain ⟨h1, h2⟩ := hv; omega)]

/-- Bounded evaluation of the raw combination `rhs ++ lhs ++ [op]` followed
by `simplify`: push the right value, push the left value, apply the opcode. -/
theorem bexecT_combE (env : Char → Option Int) {la lb : List Term} {va vb v : Int}
    {opT : Term} {f : Int → Int → Option Int} (hf : opT.asOp = some f)
    (hA : ∀ st, bexecT env la st = some (va :: st))
    (hB : ∀ st, bexecT env lb st = some (vb :: st))
    (hfab : f va vb = some v) (hv : inB v) :
    ∀ st, bexecT env (simplify (lb ++ la ++ [opT])) st = some (v :: st) := by
  intro st
  apply bexecT_simplify
  rw [List.append_assoc, bexecT_append, hB]
  show bexecT env (la ++ [opT]) (vb :: st) = some (v :: st)
  rw [bexecT_append, hA]
  show bexecT env [opT] (va :: vb :: st) = some (v :: st)
  rw [bexecT_op env hf [] va vb st, hfab]
  show (if inB v then some (v :: st) else none) = some (v :: st)
  rw [if_pos hv]

/-- Bounded evaluation through the `Mul` combinator. -/
theorem bexecT_mulE (env : Char → Option Int) {la lb : List Term} {va vb : Int}
    (hA : ∀ st, bexecT env la st = some (va :: st))
    (hB : ∀ st, bexecT env lb st = some (vb :: st))
    (hva : inB va) (hvb : inB vb) (hs : inB (va * vb)) :
    ∀ st, bexecT env (mulE la lb) st = some ((va * vb) :: st) := by
  unfold mulE
  split_ifs with h1 h2 h3
  · have hvb1 : vb = 1 := by
      have h0 := hB []; rw [h1] at h0; exact bexecT_lit_val h0
    intro st
    rw [hvb1, mul_one]
    exact hA st
  · have hva1 : va = 1 := by
      have h0 := hA []; rw [h2] at h0; exact bexecT_lit_val h0
    intro st
    rw [hva1, one_mul]
    exact hB st
  · rcases h3 with h3 | h3
    · have hvb0 : vb = 0 := by
        have h0 := hB []; rw [h3] at h0; exact bexecT_lit_val h0
      intro st
      rw [hvb0, mul_zero]
      exact bexecT_lit env (by decide) st
    · have hva0 : va = 0 := by
        have h0 := hA []; rw [h3] at h0; exact bexecT_lit_val h0
      intro st
      rw [hva0, zero_mul]
      exact bexecT_lit env (by decide) st
  · refine bexecT_combE env rfl hA hB ?_ hs
    show chk64 (va * vb) = some (va * vb)
    obtain ⟨hs1, hs2⟩ := hs
    exact chk64_eq_self (by unfold i64Min; omega) (by unfold i64Max; omega)

/-- Bounded evaluation through the `Add` combinator. -/
theorem bexecT_addE (env : Char → Option Int) {la lb : List Term} {va vb : Int}
    (hA : ∀ st, bexecT env la st = some (va :: st))
    (hB : ∀ st, bexecT env lb st = some (vb :: st))
    (hva : inB va) (hvb : inB vb) (hs : inB (va + vb)) :
    ∀ st, bexecT env (addE la lb) st = some ((va + vb) :: st) := by
  unfold addE
  split_ifs with h1 h2 h3
  · have hvb0 : vb = 0 := by
      have h0 := hB []; rw [h1] at h0; exact bexecT_lit_val h0
    intro st
    rw [hvb0, add_zero]
    exact hA st
  · have hva0 : va = 0 := by
      have h0 := hA []; rw [h2] at h0; exact bexecT_lit_val h0
    intro st
    rw [hva0, zero_add]
    exact hB st
  · have hvv : va = vb := by
      have h0 := hA []
      rw [h3, hB []] at h0
      exact (List.cons.inj (Option.some.inj h0)).1.symm
    have h2' : ∀ st2, bexecT env [Term.num 2] st2 = some (2 :: st2) :=
      bexecT_lit env (by decide)
    have hsp : inB (va * 2) := by
      rw [show va * 2 = va + vb by omega]
      exact hs
    have hm := bexecT_mulE env hA h2' hva (by decide) hsp
    intro st
    rw [show va + vb = va * 2 by omega]
    exact hm st
  · refine bexecT_combE env rfl hA hB ?_ hs
    show chk64 (va + vb) = some (va + vb)
    obtain ⟨hs1, hs2⟩ := hs
    exact chk64_eq_self (by unfold i64Min; omega) (by unfold i64Max; omega)

/-- Bounded evaluation through the `Sub` combinator. -/
theorem bexecT_subE (env : Char → Option Int) {la lb : List Term} {va vb : Int}
    (hA : ∀ st, bexecT env la st = some (va :: st))
    (hB : ∀ st, bexecT env lb st = some (vb :: st))
    (hva : inB va) (hvb : inB vb) (hs : inB (va - vb)) :
    ∀ st, bexecT env (subE la lb) st = some ((va - vb) :: st) := by
  unfold subE
  split_ifs with h1 h2
  · have hvb0 : vb = 0 := by
      have h0 := hB []; rw [h1] at h0; exact bexecT_lit_val h0
    intro st
    rw [hvb0, sub_zero]
    exact hA st
  · have hvv : va = vb := by
      have h0 := hA []
      rw [h2, hB []] at h0
      exact (List.cons.inj (Option.some.inj h0)).1.symm
    intro st
    rw [show va - vb = 0 by omega]
    exact bexecT_lit env (by decide) st
  · refine bexecT_combE env rfl hA hB ?_ hs
    show chk64 (va - vb) = some (va - vb)
    obtain ⟨hs1, hs2⟩ := hs
    exact chk64_eq_self (by unfold i64Min; omega) (by unfold i64Max; omega)

/-- Bounded evaluation through the `Div` combinator. -/
theorem bexecT_divE (env : Char → Option Int) {la lb : List Term} {va vb : Int}
    (hA : ∀ st, bexecT env la st = some (va :: st))
    (hB : ∀ st, bexecT env lb st = some (vb :: st))
    (hva : inB va) (hvb0 : vb ≠ 0) (hs : inB (va.tdiv vb)) :
    ∀ st, bexecT env (divE la lb) st = some ((va.tdiv vb) :: st) := by
  unfold divE
  split_ifs with h1 h2 h3
  · have hvb1 : vb = 1 := by
      have h0 := hB []; rw [h1] at h0; exact bexecT_lit_val h0
    intro st
    rw [hvb1, Int.tdiv_one]
    exact hA st
  · have hvv : va = vb := by
      have h0 := hA []
      rw [h2, hB []] at h0
      exact (List.cons.inj (Option.some.inj h0)).1.symm
    intro st
    rw [hvv, Int.tdiv_self (hvv ▸ hvb0)]
    exact bexecT_lit env (by decide) st
  · have hva0 : va = 0 := by
      have h0 := hA []; rw [h3] at h0; exact bexecT_lit_val h0
    intro st
    rw [hva0, Int.zero_tdiv]
    exact bexecT_lit env (by decide) st
  · refine bexecT_combE env rfl hA hB ?_ hs
    show (if vb = 0 ∨ (va = i64Min ∧ vb = -1) then none else some (va.tdiv vb)) =
      some (va.tdiv vb)
    rw [if_neg ?_]
    rintro (hc | ⟨hc1, hc2⟩)
    · exact hvb0 hc
    · obtain ⟨hva1, hva2⟩ := hva
      unfold i64Min at hc1
      omega

/-- Bounded evaluation through the `Rem` combinator. -/
theorem bexecT_remE (env : Char → Option Int) {la lb : List Term} {va vb : Int}
    (hA : ∀ st, bexecT env la st = some (va :: st))
    (hB : ∀ st, bexecT env lb st = some (vb :: st))
    (hva : inB va) (hvb0 : vb ≠ 0) (hs : inB (va.tmod vb)) :
    ∀ st, bexecT env (remE la lb) st = some ((va.tmod vb) :: st) := by
  unfold remE
  split_ifs with h1
  · rcases h1 with h1 | h1
    · have hvb1 : vb = 1 := by
        have h0 := hB []; rw [h1] at h0; exact bexecT_lit_val h0
      intro st
      rw [hvb1, Int.tmod_one]
      exact bexecT_lit env (by decide) st
    · have hvv : vb = va := by
        have h0 := hB []
        rw [h1, hA []] at h0
        exact (List.cons.inj (Option.some.inj h0)).1.symm
      intro st
      rw [hvv, Int.tmod_self]
      exact bexecT_lit env (by decide) st
  · refine bexecT_combE env rfl hA hB ?_ hs
    show (if vb = 0 ∨ (va = i64Min ∧ vb = -1) then none else some (va.tmod vb)) =
      some (va.tmod vb)
    rw [if_neg ?_]
    rintro (hc | ⟨hc1, hc2⟩)
    · exact hvb0 hc
    · obtain ⟨hva1, hva2⟩ := hva
      unfold i64Min at hc1
      omega

/-- Bounded evaluation through the `BitAnd` combinator, under the guard
neutralising the unsound `x & 1` shortcut. -/
theorem bexecT_andE (env : Char → Option Int) {la lb : List Term} {va vb v : Int}
    (hA : ∀ st, bexecT env la st = some (va :: st))
    (hB : ∀ st, bexecT env lb st = some (vb :: st))
    (hva : inB va) (hvb : inB vb) (hg : andGuard la lb va vb)
    (hvdef : v = if va ≠ 0 ∧ vb ≠ 0 then 1 else 0) :
    ∀ st, bexecT env (andE la lb) st = some (v :: st) := by
  unfold andE
  split_ifs with h1 h2 h3
  · rcases h1 with h1 | h1
    · have hvb0 : vb = 0 := by
        have h0 := hB []; rw [h1] at h0; exact bexecT_lit_val h0
      have hv0 : v = 0 := by
        rw [hvdef, if_neg (by rw [hvb0]; simp)]
      intro st
      rw [hv0]
      exact bexecT_lit env (by decide) st
    · have hva0 : va = 0 := by
        have h0 := hA []; rw [h1] at h0; exact bexecT_lit_val h0
      have hv0 : v = 0 := by
        rw [hvdef, if_neg (by rw [hva0]; simp)]
      intro st
      rw [hv0]
      exact bexecT_lit env (by decide) st
  · have hvb1 : vb = 1 := by
      have h0 := hB []; rw [h2] at h0; exact bexecT_lit_val h0
    have hva01 := hg.1 h2
    have hval : v = va := by
      rcases hva01 with h | h
      · rw [hvdef, h, if_neg (by simp)]
      · rw [hvdef, h, hvb1, if_pos (by norm_num)]
    intro st
    rw [hval]
    exact hA st
  · have hva1 : va = 1 := by
      have h0 := hA []; rw [h3] at h0; exact bexecT_lit_val h0
    have hvb01 := hg.2 h3
    have hval : v = vb := by
      rcases hvb01 with h | h
      · rw [hvdef, h, if_neg (by simp)]
      · rw [hvdef, h, hva1, if_pos (by norm_num)]
    intro st
    rw [hval]
    exact hB st
  · refine bexecT_combE env rfl hA hB ?_ ?_
    · show some (if va ≠ 0 ∧ vb ≠ 0 then (1 : Int) else 0) = some v
      rw [hvdef]
    · rw [hvdef]
      by_cases h : va ≠ 0 ∧ vb ≠ 0
      · rw [if_pos h]; decide
      · rw [if_neg h]; decide

/-- Bounded evaluation through the `BitOr` combinator. -/
theorem bexecT_orE (env : Char → Option Int) {la lb : List Term} {va vb v : Int}
    (hA : ∀ st, bexecT env la st = some (va :: st))
    (hB : ∀ st, bexecT env lb st = some (vb :: st))
    (hva : inB va) (hvb : inB vb)
    (hvdef : v = if va ≠ 0 ∨ vb ≠ 0 then 1 else 0) :
    ∀ st, bexecT env (orE la lb) st = some (v :: st) := by
  unfold orE
  split_ifs with h1
  · rcases h1 with h1 | h1
    · have hvb1 : vb = 1 := by
        have h0 := hB []; rw [h1] at h0; exact bexecT_lit_val h0
      have hv1 : v = 1 := by
        rw [hvdef, if_pos (Or.inr (by rw [hvb1]; norm_num))]
      intro st
      rw [hv1]
      exact bexecT_lit env (by decide) st
    · have hva1 : va = 1 := by
        have h0 := hA []; rw [h1] at h0; exact bexecT_lit_val h0
      have hv1 : v = 1 := by
        rw [hvdef, if_pos (Or.inl (by rw [hva1]; norm_num))]
      intro st
      rw [hv1]
      exact bexecT_lit env (by decide) st
  · refine bexecT_combE env rfl hA hB ?_ ?_
    · show some (if va ≠ 0 ∨ vb ≠ 0 then (1 : Int) else 0) = some v
      rw [hvdef]
    · rw [hvdef]
      by_cases h : va ≠ 0 ∨ vb ≠ 0
      · rw [if_pos h]; decide
      · rw [if_neg h]; decide

/-- Bounded evaluation through the `min` combinator. -/
theorem bexecT_minE (env : Char → Option Int) {la lb : List Term} {va vb : Int}
    (hA : ∀ st, bexecT env la st = some (va :: st))
    (hB : ∀ st, bexecT env lb st = some (vb :: st))
    (hva : inB va) (hvb : inB vb) :
    ∀ st, bexecT env (minE la lb) st = some (Min.min va vb :: st) := by
  unfold minE
  split_ifs with h1
  · have hvv : vb = va := by
      have h0 := hB []
      rw [h1, hA []] at h0
      exact (List.cons.inj (Option.some.inj h0)).1.symm
    intro st
    rw [hvv, min_self]
    exact hA st
  · refine bexecT_combE env rfl hA hB rfl ?_
    exact ⟨le_min hva.1 hvb.1, lt_of_le_of_lt (min_le_left va vb) hva.2⟩

/-- Bounded evaluation through the `max` combinator. -/
theorem bexecT_maxE (env : Char → Option Int) {la lb : List Term} {va vb : Int}
    (hA : ∀ st, bexecT env la st = some (va :: st))
    (hB : ∀ st, bexecT env lb st = some (vb :: st))
    (hva : inB va) (hvb : inB vb) :
    ∀ st, bexecT env (maxE la lb) st = some (Max.max va vb :: st) := by
  unfold maxE
  split_ifs with h1 h2
  · rcases h1 with h1 | h1
    · have hvv : vb = va := by
        have h0 := hB []
        rw [h1, hA []] at h0
        exact (List.cons.inj (Option.some.inj h0)).1.symm
      intro st
      rw [hvv, max_self]
      exact hA st
    · have hvb0 : vb = 0 := by
        have h0 := hB []; rw [h1] at h0; exact bexecT_lit_val h0
      intro st
      rw [hvb0, max_eq_left hva.1]
      exact hA st
  · have hva0 : va = 0 := by
      have h0 := hA []; rw [h2] at h0; exact bexecT_lit_val h0
    intro st
    rw [hva0, max_eq_right hvb.1]
    exact hB st
  · refine bexecT_combE env rfl hA hB rfl ?_
    exact ⟨le_trans hva.1 (le_max_left va vb), max_lt hva.2 hvb.2⟩

/-- Bounded evaluation through the `gte` combinator. -/
theorem bexecT_gteE (env : Char → Option Int) {la lb : List Term} {va vb v : Int}
    (hA : ∀ st, bexecT env la st = some (va :: st))
    (hB : ∀ st, bexecT env lb st = some (vb :: st))
    (hva : inB va) (hvb : inB vb)
    (hvdef : v = if vb ≤ va then 1 else 0) :
    ∀ st, bexecT env (gteE la lb) st = some (v :: st) := by
  unfold gteE
  split_ifs with h1
  · have hvv : vb = va := by
      have h0 := hB []
      rw [h1, hA []] at h0
      exact (List.cons.inj (Option.some.inj h0)).1.symm
    have hv1 : v = 1 := by rw [hvdef, if_pos (le_of_eq hvv)]
    intro st
    rw [hv1]
    exact bexecT_lit env (by decide) st
  · refine bexecT_combE env rfl hA hB ?_ ?_
    · show some (if vb ≤ va then (1 : Int) else 0) = some v
      rw [hvdef]
    · rw [hvdef]
      by_cases h : vb ≤ va
      · rw [if_pos h]; decide
      · rw [if_neg h]; decide

/-- Bounded evaluation through the `lt` combinator, under the guard
neutralising the unsound `(_ % n) < n` peephole. -/
theorem bexecT_ltE (env : Char → Option Int) {la lb : List Term} {va vb v : Int}
    (hA : ∀ st, bexecT env la st = some (va :: st))
    (hB : ∀ st, bexecT env lb st = some (vb :: st))
    (hva : inB va) (hvb : inB vb) (hg : ltGuard la lb va vb)
    (hvdef : v = if va < vb then 1 else 0) :
    ∀ st, bexecT env (ltE la lb) st = some (v :: st) := by
  have hcomb : ∀ st, bexecT env (simplify (lb ++ la ++ [Term.lt])) st =
      some (v :: st) := by
    refine bexecT_combE env rfl hA hB ?_ ?_
    · show some (if va < vb then (1 : Int) else 0) = some v
      rw [hvdef]
    · rw [hvdef]
      by_cases h : va < vb
      · rw [if_pos h]; decide
      · rw [if_neg h]; decide
  unfold ltE
  split_ifs with h1
  · have hvv : vb = va := by
      have h0 := hB []
      rw [h1, hA []] at h0
      exact (List.cons.inj (Option.some.inj h0)).1.symm
    have hv0 : v = 0 := by rw [hvdef, if_neg (by omega)]
    intro st
    rw [hv0]
    exact bexecT_lit env (by decide) st
  · cases hh : lb.head? with
    | none => exact hcomb
    | some tm =>
      rcases tm with nlit | cv | - | - | - | - | - | - | - | - | - | - | -
      · by_cases hcnd : la.getLast? = some Term.mod ∧ la.head? = some (Term.num nlit)
        · have hlt : va < vb := by
            unfold ltGuard at hg
            rw [hh] at hg
            simp only at hg
            exact hg hcnd
          have hv1 : v = 1 := by rw [hvdef, if_pos hlt]
          intro st
          simp only
          rw [if_pos hcnd, hv1]
          exact bexecT_lit env (by decide) st
        · intro st
          simp only
          rw [if_neg hcnd]
          exact hcomb st
      all_goals exact hcomb

/-- The central evaluation-agreement induction: under `safe`, the built
expression's bounded run pushes exactly the mathematical value. -/
theorem bexecT_build : ∀ (s : SymExpr) (env : Char → Option Int), safe s env →
    ∃ v, denote s env = some v ∧ inB v ∧
      ∀ st, bexecT env (build s) st = some (v :: st) := by
  intro s
  induction s with
  | num n =>
      intro env hs
      have hsn : inB n := hs
      refine ⟨n, rfl, hsn, ?_⟩
      intro st
      show bexecT env [Term.num (wrap32 n)] st = some (n :: st)
      have h1 := hsn.1
      have h2 := hsn.2
      rw [wrap32_eq_self (by omega) (by omega)]
      exact bexecT_lit env hsn st
  | var c =>
      intro env hs
      have hs2 : (match env c with
        | some v => inB v
        | none => False) := hs
      cases hc : env c with
      | none =>
          rw [hc] at hs2
          exact hs2.elim
      | some w =>
          rw [hc] at hs2
          simp only at hs2
          refine ⟨w, hc, hs2, ?_⟩
          intro st
          show bexecT env [Term.var c] st = some (w :: st)
          rw [bexecT, hc]
          simp only
          have h1 := hs2.1
          have h2 := hs2.2
          rw [usizeToI64_eq_self (by omega)]
          rw [if_pos hs2]
          rfl
  | bin op a b iha ihb =>
      intro env hs
      obtain ⟨hsa, hsb, hrest⟩ := hs
      obtain ⟨va, hda, hva, hA⟩ := iha env hsa
      obtain ⟨vb, hdb, hvb, hB⟩ := ihb env hsb
      rw [hda, hdb] at hrest
      simp only at hrest
      obtain ⟨hopB, hand, hltg⟩ := hrest
      cases hop : opSem op va vb with
      | none =>
          rw [hop] at hopB
          simp only at hopB
      | some v =>
          rw [hop] at hopB
          simp only at hopB
          refine ⟨v, ?_, hopB, ?_⟩
          · show (match denote a env, denote b env with
              | some x, some y => opSem op x y
              | _, _ => none) = some v
            rw [hda, hdb]
            simp only
            exact hop
          · cases op with
            | add =>
                have hv : v = va + vb := (Option.some.inj hop).symm
                subst hv
                exact bexecT_addE env hA hB hva hvb hopB
            | sub =>
                have hv : v = va - vb := (Option.some.inj hop).symm
                subst hv
                exact bexecT_subE env hA hB hva hvb hopB
            | mul =>
                have hv : v = va * vb := (Option.some.inj hop).symm
                subst hv
                exact bexecT_mulE env hA hB hva hvb hopB
            | div =>
                by_cases hvb0 : vb = 0
                · rw [show opSem BOp.div va vb = none from by
                    show (if vb = 0 then none else some (va.tdiv vb)) = none
                    rw [if_pos hvb0]] at hop
                  exact Option.noConfusion hop
                · have hv : v = va.tdiv vb := by
                    have h2 : opSem BOp.div va vb = some (va.tdiv vb) := by
                      show (if vb = 0 then none else some (va.tdiv vb)) = _
                      rw [if_neg hvb0]
                    rw [h2] at hop
                    exact (Option.some.inj hop).symm
                  subst hv
                  exact bexecT_divE env hA hB hva hvb0 hopB
            | mod =>
                by_cases hvb0 : vb = 0
                · rw [show opSem BOp.mod va vb = none from by
                    show (if vb = 0 then none else some (va.tmod vb)) = none
                    rw [if_pos hvb0]] at hop
                  exact Option.noConfusion hop
                · have hv : v = va.tmod vb := by
                    have h2 : opSem BOp.mod va vb = some (va.tmod vb) := by
                      show (if vb = 0 then none else some (va.tmod vb)) = _
                      rw [if_neg hvb0]
                    rw [h2] at hop
                    exact (Option.some.inj hop).symm
                  subst hv
                  exact bexecT_remE env hA hB hva hvb0 hopB
            | and =>
                have hv : v = if va ≠ 0 ∧ vb ≠ 0 then 1 else 0 :=
                  (Option.some.inj hop).symm
                exact bexecT_andE env hA hB hva hvb (hand rfl) hv
            | or =>
                have hv : v = if va ≠ 0 ∨ vb ≠ 0 then 1 else 0 :=
                  (Option.some.inj hop).symm
                exact bexecT_orE env hA hB hva hvb hv
            | min =>
                have hv : v = Min.min va vb := (Option.some.inj hop).symm
                subst hv
                exact bexecT_minE env hA hB hva hvb
            | max =>
                have hv : v = Max.max va vb := (Option.some.inj hop).symm
                subst hv
                exact bexecT_maxE env hA hB hva hvb
            | gte =>
                have hv : v = if vb ≤ va then 1 else 0 := (Option.some.inj hop).symm
                exact bexecT_gteE env hA hB hva hvb hv
            | lt =>
                have hv : v = if va < vb then 1 else 0 := (Option.some.inj hop).symm
                exact bexecT_ltE env hA hB hva hvb (hltg rfl) hv

/-- C1 counterexample: for `Num(5) & Num(1)` no overflow and no zero divisor
occurs anywhere, yet the built expression is `[Num 5]` (the `x & 1 → x`
shortcut) and executes to `5`, while the section-3 opcode semantics of `And`
gives `1`. -/
theorem C1_counterexample :
    denote (SymExpr.bin BOp.and (SymExpr.num 5) (SymExpr.num 1))
        (fun _ => none) = some 1 ∧
      build (SymExpr.bin BOp.and (SymExpr.num 5) (SymExpr.num 1)) = [Term.num 5] ∧
      exec (build (SymExpr.bin BOp.and (SymExpr.num 5) (SymExpr.num 1)))
        (fun _ => none) = ExecOut.ret (some 5) := by
  refine ⟨by decide, by decide, ?_⟩
  show exec [Term.num 5] (fun _ => none) = ExecOut.ret (some 5)
  decide

/-- C1 amended: for every combinator tree whose subexpression values all
exist and lie in `[0, i32::MAX)` (so no zero divisor, no overflow, and no
value reaching the `i32::MAX` infinity sentinel of min/max), and which
satisfies the `BitAnd`/`lt` guards neutralising the two value-changing
shortcuts, `exec` returns exactly the section-3 mathematical value. -/
theorem C1_evaluation_agreement (s : SymExpr) (env : Char → Option Int)
    (hs : safe s env) :
    ∃ v, denote s env = some v ∧ exec (build s) env = ExecOut.ret (some v) := by
  obtain ⟨v, hd, hv, hb⟩ := bexecT_build s env hs
  exact ⟨v, hd, exec_of_bexecT (hb []) hv⟩

/-- Witness for C1 amended at `Num(2) + Num(3)` under the empty
environment. -/
theorem C1_witness :
    ∃ v, denote (SymExpr.bin BOp.add (SymExpr.num 2) (SymExpr.num 3))
        (fun _ => none) = some v ∧
      exec (build (SymExpr.bin BOp.add (SymExpr.num 2) (SymExpr.num 3)))
        (fun _ => none) = ExecOut.ret (some v) :=
  C1_evaluation_agreement (SymExpr.bin BOp.add (SymExpr.num 2) (SymExpr.num 3))
    (fun _ => none)
    ⟨(by decide : inB 2), (by decide : inB 3), (by decide : inB 5),
      fun h => BOp.noConfusion h, fun h => BOp.noConfusion h⟩

theorem splice_cons_op {tm : Term} {f : Int → Int → Option Int}
    (hf : tm.asOp = some f) (r : List Term) (x : Char) (v : List Term) :
    splice (tm :: r) x v = tm :: splice r x v := by
  cases tm
  case num n => exact absurd hf (by simp [Term.asOp])
  case var c => exact absurd hf (by simp [Term.asOp])
  all_goals rfl

/-- The splice loop of `substitute`, semantically: replacing `Var x` by a
replacement whose bounded run pushes `vv` is the same as binding `x ↦ vv`
in the environment. -/
theorem bexecT_splice (env : Char → Option Int) (x : Char) (v : List Term)
    (vv : Int) (hv : ∀ st, bexecT env v st = some (vv :: st)) (hvB : inB vv) :
    ∀ (t : List Term) (st : List Int),
      bexecT env (splice t x v) st = bexecT (upd env x vv) t st := by
  intro t
  induction t with
  | nil => intro st; rfl
  | cons tm r ih =>
    intro st
    rcases Term.asOp_cases tm with ⟨n, rfl⟩ | ⟨c, rfl⟩ | ⟨f, hf⟩
    · show (if inB n then bexecT env (splice r x v) (n :: st) else none) =
        (if inB n then bexecT (upd env x vv) r (n :: st) else none)
      by_cases hn : inB n
      · rw [if_pos hn, if_pos hn]
        exact ih (n :: st)
      · rw [if_neg hn, if_neg hn]
    · by_cases hcx : c = x
      · have hsp : splice (Term.var c :: r) x v = v ++ splice r x v := by
          show (if c = x then v else [Term.var c]) ++ splice r x v = _
          rw [if_pos hcx]
        rw [hsp, bexecT_append, hv]
        show bexecT env (splice r x v) (vv :: st) = bexecT (upd env x vv) (Term.var c :: r) st
        rw [bexecT]
        have hup : upd env x vv c = some vv := by
          unfold upd
          rw [if_pos hcx]
        rw [hup]
        simp only
        have h1 := hvB.1
        have h2 := hvB.2
        rw [usizeToI64_eq_self (by omega)]
        rw [if_pos hvB]
        exact ih (vv :: st)
      · have hsp : splice (Term.var c :: r) x v = Term.var c :: splice r x v := by
          show (if c = x then v else [Term.var c]) ++ splice r x v = _
          rw [if_neg hcx]
          rfl
        rw [hsp]
        show bexecT env (Term.var c :: splice r x v) st =
          bexecT (upd env x vv) (Term.var c :: r) st
        rw [bexecT, bexecT]
        have hup : upd env x vv c = env c := by
          unfold upd
          rw [if_neg hcx]
        rw [hup]
        cases hc : env c with
        | none => rfl
        | some w =>
            simp only
            by_cases hw : inB (usizeToI64 w)
            · rw [if_pos hw, if_pos hw]
              exact ih (usizeToI64 w :: st)
            · rw [if_neg hw, if_neg hw]
    · rw [splice_cons_op hf]
      match st with
      | [] => rw [bexecT_op_nil env hf, bexecT_op_nil (upd env x vv) hf]
      | [a] => rw [bexecT_op_one env hf, bexecT_op_one (upd env x vv) hf]
      | a :: b :: st3 =>
          rw [bexecT_op env hf, bexecT_op (upd env x vv) hf]
          cases hab : f a b with
          | some c =>
              simp only
              by_cases hc : inB c
              · rw [if_pos hc, if_pos hc]
                exact ih (c :: st3)
              · rw [if_neg hc, if_neg hc]
          | none => rfl

/-- C7 counterexample: substituting `x := 46341` into `x * x` constant-folds
through the `as i32` wrap to `Num(-2147479015)`, while evaluating `x * x`
with `x` bound to `46341` gives the exact square `2147488281`; no operator
application overflows `i64` and no division occurs in either evaluation. -/
theorem C7_counterexample :
    substitute [Term.var 'x', Term.var 'x', Term.mul] 'x' [Term.num 46341] =
      [Term.num (-2147479015)] ∧
    exec [Term.var 'x', Term.var 'x', Term.mul]
      (upd (fun _ => none) 'x' 46341) = ExecOut.ret (some 2147488281) ∧
    exec (substitute [Term.var 'x', Term.var 'x', Term.mul] 'x' [Term.num 46341])
        (fun _ => none) ≠
      exec [Term.var 'x', Term.var 'x', Term.mul]
        (upd (fun _ => none) 'x' 46341) := by
  refine ⟨by decide, by decide, by decide⟩

/-- C7 amended: substitution commutes with evaluation under the bounded
precondition — if the replacement's run pushes a value `vv` in
`[0, i32::MAX)` under `env`, and the original expression's run under
`env ∪ {x ↦ vv}` stays within `[0, i32::MAX)` and produces `w`, then both
`substitute(x, v).exec(env)` and `exec(env ∪ {x ↦ vv})` return exactly
`w`. -/
theorem C7_substitution_commutes (t v : List Term) (x : Char)
    (env : Char → Option Int) (vv w : Int)
    (hv : ∀ st, bexecT env v st = some (vv :: st)) (hvB : inB vv)
    (ht : bexecT (upd env x vv) t [] = some [w]) (hwB : inB w) :
    exec (substitute t x v) env = ExecOut.ret (some w) ∧
      exec t (upd env x vv) = ExecOut.ret (some w) := by
  constructor
  · have hsp : bexecT env (splice t x v) [] = some [w] := by
      rw [bexecT_splice env x v vv hv hvB t []]
      exact ht
    exact exec_of_bexecT (bexecT_simplify env hsp) hwB
  · exact exec_of_bexecT ht hwB

/-- Witness for C7 amended at `t = [Var 'x']`, `v = [Num 7]`. -/
theorem C7_witness :
    exec (substitute [Term.var 'x'] 'x' [Term.num 7]) (fun _ => none) =
        ExecOut.ret (some 7) ∧
      exec [Term.var 'x'] (upd (fun _ => none) 'x' 7) = ExecOut.ret (some 7) :=
  C7_substitution_commutes [Term.var 'x'] [Term.num 7] 'x' (fun _ => none) 7 7
    (bexecT_lit (fun _ => none) (by decide)) (by decide) (by decide) (by decide)

end Luminal
